import Mathlib

/-!
Verification development for the MOU generator (src/mouapp.py and src/app.py).

Text is modelled as `List Char`.  Python's `str.lower()` / `str.upper()` are
modelled by the ASCII case maps `Char.toLower` / `Char.toUpper`; all string
constants appearing in the source are ASCII except the Portuguese phrase
anchors, which contain no cased non-ASCII letters in the positions that
matter, so the model is faithful on the inputs considered here.
Python's regex class `\s` is modelled by the six ASCII whitespace characters.
-/

/-- Convert a string literal to the character-list representation used
throughout this development. -/
def str (s : String) : List Char := s.toList

/-- Model of the characters matched by the regex class `\s` (ASCII part):
space, tab, newline, carriage return, vertical tab, form feed. -/
def isSpace (c : Char) : Bool :=
  c == ' ' || c == '\t' || c == '\n' || c == '\r' ||
  c == Char.ofNat 11 || c == Char.ofNat 12

/-- Characters allowed in a placeholder key by the token syntax
`[A-Za-z0-9_]` (mouapp.py line 25, `PLACEHOLDER_RE`). -/
def isKeyChar (c : Char) : Bool :=
  ('a' ≤ c && c ≤ 'z') || ('A' ≤ c && c ≤ 'Z') || ('0' ≤ c && c ≤ '9') || c == '_'

/-- Lower-casing of a character list, modelling Python `str.lower()`. -/
def lowerL (s : List Char) : List Char := s.map Char.toLower

/-- Upper-casing of a character list, modelling Python `str.upper()`. -/
def upperL (s : List Char) : List Char := s.map Char.toUpper

/-- Every character of `s` is outside `{`/`}`. -/
def braceFree (s : List Char) : Bool := s.all (fun c => !(c == '{' || c == '}'))

/-- Every character of `s` is a key character. -/
def allKeyChar (s : List Char) : Bool := s.all isKeyChar

/-- Every character of `s` is non-whitespace. -/
def spaceFree (s : List Char) : Bool := s.all (fun c => !(isSpace c))

/-- Auxiliary scanner for `collapseWs`: the flag records whether we are
inside a whitespace run whose single replacement space was already emitted. -/
def collapseAux : Bool → List Char → List Char
  | _, [] => []
  | pending, c :: rest =>
    if isSpace c then
      if pending then collapseAux true rest else ' ' :: collapseAux true rest
    else c :: collapseAux false rest

/-- Model of `re.sub(r"\s+", " ", txt)` (mouapp.py line 51): every maximal
whitespace run is replaced by a single space. -/
def collapseWs (s : List Char) : List Char := collapseAux false s

/-- Model of Python `str.strip()`: drop leading and trailing whitespace. -/
def stripWs (s : List Char) : List Char :=
  ((s.dropWhile isSpace).reverse.dropWhile isSpace).reverse

/-- Whitespace normalization applied by `_para_text`
(mouapp.py lines 49-51): collapse interior whitespace, trim the ends. -/
def pyNormWs (s : List Char) : List Char := stripWs (collapseWs s)

/-- A formatting run: a text span plus the format attributes manipulated by
the program.  `python-docx` exposes `run.bold` as tri-state (None/True/False)
and `run.font.name` / `run.font.size` as optional, hence the `Option`s.
The font size `Pt(11)` is recorded as the number `11`. -/
structure Run where
  text : List Char
  bold : Option Bool
  fontName : Option (List Char)
  fontSize : Option Nat
deriving DecidableEq, Repr

/-- A paragraph is an ordered sequence of runs. -/
structure Para where
  runs : List Run
deriving DecidableEq, Repr

/-- A table cell contains a sequence of paragraphs. -/
structure Cell where
  paras : List Para
deriving DecidableEq, Repr

/-- A table row is a sequence of cells. -/
structure Row where
  cells : List Cell
deriving DecidableEq, Repr

/-- A table is a sequence of rows. -/
structure Table where
  rows : List Row
deriving DecidableEq, Repr

/-- A document section exposes a header and a footer, each a paragraph
sequence (python-docx headers/footers are always truthy objects; an absent
one is modelled by an empty paragraph list). -/
structure Sec where
  header : List Para
  footer : List Para
deriving DecidableEq, Repr

/-- A document: body paragraphs, body tables, and sections
(mirroring the accessors used by `_iter_all_paragraphs`). -/
structure Doc where
  body : List Para
  tables : List Table
  secs : List Sec
deriving DecidableEq, Repr

/-- Concatenation of the runs' texts: `"".join(run.text for run in p.runs)`
(mouapp.py line 50).  The `or p.text or ""` fallback only matters for
paragraphs whose text lives outside plain runs (e.g. hyperlinks), which the
model's paragraphs do not have. -/
def runsText (p : Para) : List Char := (p.runs.map Run.text).flatten

/-- Model of `_para_text` (mouapp.py lines 49-51): the run-concatenated text
with whitespace collapsed and the ends trimmed. -/
def paraText (p : Para) : List Char := pyNormWs (runsText p)

/-- Paragraphs of one section, header first then footer
(mouapp.py lines 41-47). -/
def secParas (s : Sec) : List Para := s.header ++ s.footer

/-- Paragraphs of one table, row by row, cell by cell
(mouapp.py lines 35-39). -/
def tableParas (t : Table) : List Para :=
  (t.rows.map (fun r => (r.cells.map Cell.paras).flatten)).flatten

/-- Model of `_iter_all_paragraphs` (mouapp.py lines 30-47): body paragraphs,
then table-cell paragraphs, then header/footer paragraphs, in a fixed order. -/
def allParagraphs (d : Doc) : List Para :=
  d.body ++ (d.tables.map tableParas).flatten ++ (d.secs.map secParas).flatten

/-- Apply a paragraph transformation to every paragraph of the document,
in place (the model of mutating each paragraph through the walker). -/
def mapParas (f : Para → Para) (d : Doc) : Doc :=
  { body := d.body.map f,
    tables := d.tables.map (fun t =>
      { rows := t.rows.map (fun r =>
          { cells := r.cells.map (fun c => { paras := c.paras.map f }) }) }),
    secs := d.secs.map (fun s =>
      { header := s.header.map f, footer := s.footer.map f }) }

/-- Case-insensitive character equality, as used by `re.IGNORECASE` on a
literal pattern. -/
def ciEqChar (a b : Char) : Bool := a.toLower == b.toLower

/-- Case-insensitive "is prefix of". -/
def ciStarts : List Char → List Char → Bool
  | [], _ => true
  | _ :: _, [] => false
  | a :: as, b :: bs => ciEqChar a b && ciStarts as bs

/-- Case-insensitive "occurs in" (substring test). -/
def ciHas (pat : List Char) : List Char → Bool
  | [] => ciStarts pat []
  | c :: rest => ciStarts pat (c :: rest) || ciHas pat rest

/-- Exact (byte-wise) "is prefix of". -/
def startsB : List Char → List Char → Bool
  | [], _ => true
  | _ :: _, [] => false
  | a :: as, b :: bs => a == b && startsB as bs

/-- Exact (byte-wise) "occurs in", the model of Python's `in` on strings
(mouapp.py line 103). -/
def hasSub (pat : List Char) : List Char → Bool
  | [] => startsB pat []
  | c :: rest => startsB pat (c :: rest) || hasSub pat rest

/-- Worker for `ciRepl`.  The `Nat` counts input characters still to be
skipped because they belonged to the match just replaced. -/
def ciRepAux (pat rep : List Char) : Nat → List Char → List Char
  | _, [] => []
  | n + 1, _ :: rest => ciRepAux pat rep n rest
  | 0, c :: rest =>
    if !pat.isEmpty && ciStarts pat (c :: rest) then
      rep ++ ciRepAux pat rep (pat.length - 1) rest
    else c :: ciRepAux pat rep 0 rest

/-- Model of `re.compile(re.escape(k), re.IGNORECASE).sub(v, s)`
(mouapp.py line 109): replace every case-insensitive occurrence of the
literal `pat` by `rep`, scanning left to right, non-overlapping.
(`pat` is always a nonempty `\x7b\x7bKEY\x7d\x7d` literal at every call site.) -/
def ciRepl (pat rep s : List Char) : List Char := ciRepAux pat rep 0 s

/-- The literal token a canonical key is wrapped into:
`f"\x7b\x7b{k}\x7d\x7d"` (mouapp.py line 95). -/
def tokenOf (k : List Char) : List Char := '{' :: '{' :: (k ++ ['}', '}'])

/-- Build the `normalized` dict of mouapp.py line 95: token literal to value
(values are already strings in the model, so `str(v)` is the identity). -/
def normTok (m : List (List Char × List Char)) : List (List Char × List Char) :=
  m.map (fun kv => (tokenOf kv.1, kv.2))

/-- The replacement loop of mouapp.py lines 107-109: apply each pattern in
mapping order to the accumulated text. -/
def applyAll (nm : List (List Char × List Char)) (s : List Char) : List Char :=
  nm.foldl (fun acc kv => ciRepl kv.1 kv.2 acc) s

/-- The run created by `p.add_run(replaced)` (mouapp.py line 117): fresh text,
no explicit formatting. -/
def mkRun (t : List Char) : Run :=
  { text := t, bold := none, fontName := none, fontSize := none }

/-- Per-paragraph substitution step of
`replace_placeholders_and_collect_exceptions` (mouapp.py lines 99-117):
compute the normalized effective text, run all replacements over it, and if
anything changed rewrite the paragraph as one fresh run carrying the result. -/
def substPara (nm : List (List Char × List Char)) (p : Para) : Para :=
  let orig := paraText p
  let replaced := applyAll nm orig
  if replaced = orig then p else { runs := [mkRun replaced] }

/-- Exception marking of mouapp.py line 103: the lowered pre-substitution
text contains the BP_DATE or COMMENTS token. -/
def paraMarked (p : Para) : Bool :=
  hasSub (str "{{bp_date}}") (lowerL (paraText p)) ||
  hasSub (str "{{comments}}") (lowerL (paraText p))

/-- Model of `replace_placeholders_and_collect_exceptions`
(mouapp.py lines 89-119): substitute in every paragraph of the document and
return, alongside, the exception markers of the traversal (one flag per
paragraph of `allParagraphs`, the index-into-traversal rendering of the
identity set built by the source). -/
def replacePlaceholdersAndCollectExceptions
    (m : List (List Char × List Char)) (d : Doc) : Doc × List Bool :=
  (mapParas (substPara (normTok m)) d, (allParagraphs d).map paraMarked)

/-- Model of the `re.fullmatch(r"\s*n\s*/?\s*a\s*\.?\s*", text_low)` test
(mouapp.py line 84).  The regex is deterministic on its alternatives, so the
greedy scan below is an exact model. -/
def naOnly (t : List Char) : Bool :=
  match t.dropWhile isSpace with
  | 'n' :: r1 =>
    let r2 := r1.dropWhile isSpace
    let r3 := match r2 with | '/' :: x => x | _ => r2
    match r3.dropWhile isSpace with
    | 'a' :: r5 =>
      let r6 := r5.dropWhile isSpace
      let r7 := match r6 with | '.' :: x => x | _ => r6
      (r7.dropWhile isSpace).isEmpty
    | _ => false
  | _ => false

/-- Model of `_is_exception_phrase` (mouapp.py lines 60-87), clause for
clause in source order. -/
def isExceptionPhrase (t : List Char) : Bool :=
  (hasSub (str "como parte integrante deste documento") t &&
    hasSub (str "continuidade do processo") t) ||
  (hasSub (str "as an integral part of this document") t &&
    hasSub (str "continuity of the nomination process") t) ||
  (hasSub (str "business plan apresentado") t &&
    (hasSub (str "validado") t || hasSub (str "apresentado") t)) ||
  (hasSub (str "business plan") t &&
    (hasSub (str "validated") t || hasSub (str "approved") t)) ||
  (hasSub (str "especifica") t &&
    (hasSub (str "acordadas") t || hasSub (str "alterações") t ||
      hasSub (str "alteracoes") t)) ||
  ((hasSub (str "specification") t || hasSub (str "specifications") t) &&
    (hasSub (str "agreed") t || hasSub (str "approved") t) &&
    (hasSub (str "amendment") t || hasSub (str "changes") t ||
      hasSub (str "modifications") t)) ||
  naOnly t

/-- First enforcement pass on one run (mouapp.py lines 131-135):
Calibri, 11 pt, bold. -/
def pass1Run (r : Run) : Run :=
  { r with fontName := some (str "Calibri"), fontSize := some 11, bold := some true }

/-- First enforcement pass on one paragraph. -/
def pass1Para (p : Para) : Para := { runs := p.runs.map pass1Run }

/-- The `unbold` helper (mouapp.py lines 137-139). -/
def unboldP (p : Para) : Para :=
  { runs := p.runs.map (fun r => { r with bold := some false }) }

/-- The lowered normalized text `_para_text(p).lower()` used by the
enforcement pass (mouapp.py line 143). -/
def lowText (p : Para) : List Char := lowerL (paraText p)

/-- The `text_low in {"2.", "2"}` test (mouapp.py line 150). -/
def isTwo (t : List Char) : Bool := t == str "2." || t == str "2"

/-- One iteration of the un-bolding loop (mouapp.py lines 142-155) at index
`i`, acting on the current paragraph list.  Exceptions are a predicate on
traversal indices, the stable rendering of the identity set `p in exceptions`. -/
def pass2step (exc : Nat → Bool) (ps : List Para) (i : Nat) : List Para :=
  match ps[i]? with
  | none => ps
  | some p =>
    if exc i || isExceptionPhrase (lowText p) then ps.set i (unboldP p)
    else if isTwo (lowText p) then
      match (ps.set i (unboldP p))[i + 1]? with
      | none => ps.set i (unboldP p)
      | some q =>
        if isExceptionPhrase (lowText q) then
          (ps.set i (unboldP p)).set (i + 1) (unboldP q)
        else ps.set i (unboldP p)
    else ps

/-- The full un-bolding loop over the traversal. -/
def pass2 (exc : Nat → Bool) (ps : List Para) : List Para :=
  (List.range ps.length).foldl (pass2step exc) ps

/-- Model of `enforce_calibri11_and_bold_with_exceptions`
(mouapp.py lines 121-155), acting on the materialized traversal
`all_paras = list(_iter_all_paragraphs(doc))`. -/
def enforceCalibri11AndBoldWithExceptions (exc : Nat → Bool) (ps : List Para) :
    List Para :=
  pass2 exc (ps.map pass1Para)

/-- Strip leading and trailing characters belonging to `cs`
(Python `str.strip(chars)`). -/
def stripChars (cs : List Char) (s : List Char) : List Char :=
  ((s.dropWhile (fun c => cs.contains c)).reverse.dropWhile
      (fun c => cs.contains c)).reverse

/-- Key normalization of `JobConfig.upcase_keys` (mouapp.py line 203):
`k.strip().strip("\x7b\x7d ").upper()`. -/
def normKey (k : List Char) : List Char :=
  upperL (stripChars (str "{} ") (stripWs k))

/-- Model of the `upcase_keys` validator body (mouapp.py lines 199-205):
normalize every key, keep the (stringified) value.  The source function
contains no validation and never raises. -/
def upcaseKeys (m : List (List Char × List Char)) : List (List Char × List Char) :=
  m.map (fun kv => (normKey kv.1, kv.2))

/-- Modelled from the spec: the Placeholder Normalizer of spec sections 4.3
and 7, which is required to fail with a validation error exactly when some
key is empty after normalization.  No such check exists in src/mouapp.py;
this definition follows the spec wording, for comparison with `upcaseKeys`. -/
def specNormalizeMapping (m : List (List Char × List Char)) :
    Option (List (List Char × List Char)) :=
  if m.all (fun kv => !(normKey kv.1).isEmpty) then some (upcaseKeys m) else none

/-- Control-flow model of the CSV batch loop of mouapp.py lines 299-319: the
per-row work (substitution, formatting, DOCX export) is not wrapped in any
try/except, so a row failure propagates out of the loop; subsequent rows are
not processed and no per-row status is recorded. -/
def mouappBatch {α β ε : Type} (f : α → Except ε β) : List α → Except ε (List β)
  | [] => Except.ok []
  | r :: rs =>
    match f r with
    | Except.error e => Except.error e
    | Except.ok b =>
      match mouappBatch f rs with
      | Except.error e => Except.error e
      | Except.ok bs => Except.ok (b :: bs)

/-- Control-flow model of the CSV batch loop of app.py lines 217-226: each
row's work runs inside try/except, a failure is recorded as a failure status
(`false` here, the "ERRO: ..." row of the source) and the loop continues. -/
def appBatch {α β ε : Type} (f : α → Except ε β) : List α → List Bool
  | [] => []
  | r :: rs =>
    (match f r with | Except.ok _ => true | Except.error _ => false) :: appBatch f rs

/-! ### Character-level facts about the ASCII case map -/

lemma char_eq_of_toNat_eq {c d : Char} (h : c.toNat = d.toNat) : c = d := by
  apply Char.ext
  apply UInt32.eq_of_toBitVec_eq
  apply BitVec.eq_of_toNat_eq
  exact h

lemma toNat_toLower (c : Char) :
    (Char.toLower c).toNat =
      if 65 ≤ c.toNat ∧ c.toNat ≤ 90 then c.toNat + 32 else c.toNat := by
  rw [Char.toLower]
  split
  next h =>
    have hv : (c.toNat + 32).isValidChar := Or.inl (by omega)
    rw [Char.ofNat, dif_pos hv]
    rfl
  next h => rfl

lemma toLower_fixed {c t : Char} (ht : t.toNat < 97 ∨ 122 < t.toNat)
    (h : Char.toLower c = t) : c = t := by
  have h1 := congrArg Char.toNat h
  rw [toNat_toLower] at h1
  split at h1
  · exfalso; omega
  · exact char_eq_of_toNat_eq h1

lemma isSpace_cases {c : Char} (h : isSpace c = true) :
    c = ' ' ∨ c = '\t' ∨ c = '\n' ∨ c = '\r' ∨ c = Char.ofNat 11 ∨ c = Char.ofNat 12 := by
  have h2 := h
  simp only [isSpace, Bool.or_eq_true, beq_iff_eq] at h2
  tauto

lemma toLower_of_isSpace {c : Char} (h : isSpace c = true) : Char.toLower c = c := by
  rcases isSpace_cases h with rfl | rfl | rfl | rfl | rfl | rfl <;> decide

lemma isSpace_toLower (c : Char) : isSpace (Char.toLower c) = isSpace c := by
  cases h : isSpace c
  · cases h2 : isSpace (Char.toLower c)
    · rfl
    · exfalso
      rcases isSpace_cases h2 with ht | ht | ht | ht | ht | ht <;>
        · have hc := toLower_fixed (by decide) ht
          rw [hc] at h
          exact absurd h (by decide)
  · rw [toLower_of_isSpace h, h]

lemma isKeyChar_toNat {c : Char} (h : isKeyChar c = true) :
    (48 ≤ c.toNat ∧ c.toNat ≤ 57) ∨ (65 ≤ c.toNat ∧ c.toNat ≤ 90) ∨
      (97 ≤ c.toNat ∧ c.toNat ≤ 122) ∨ c.toNat = 95 := by
  simp only [isKeyChar, Bool.or_eq_true, Bool.and_eq_true, decide_eq_true_eq,
    beq_iff_eq] at h
  rcases h with ((⟨h1, h2⟩ | ⟨h1, h2⟩) | ⟨h1, h2⟩) | rfl
  · rw [Char.le_def] at h1 h2
    right; right; left; exact ⟨h1, h2⟩
  · rw [Char.le_def] at h1 h2
    right; left; exact ⟨h1, h2⟩
  · rw [Char.le_def] at h1 h2
    left; exact ⟨h1, h2⟩
  · right; right; right; decide

lemma toNat_toLower_keyChar {c : Char} (h : isKeyChar c = true) :
    (48 ≤ (Char.toLower c).toNat ∧ (Char.toLower c).toNat ≤ 57) ∨
      (97 ≤ (Char.toLower c).toNat ∧ (Char.toLower c).toNat ≤ 122) ∨
      (Char.toLower c).toNat = 95 := by
  have hn := isKeyChar_toNat h
  have ht := toNat_toLower c
  split at ht <;> omega

lemma keyChar_not_space {c : Char} (h : isKeyChar c = true) : isSpace c = false := by
  cases h2 : isSpace c
  · rfl
  · exfalso
    rcases isSpace_cases h2 with rfl | rfl | rfl | rfl | rfl | rfl <;>
      exact absurd h (by decide)

/-! ### The Placeholder Normalizer (claims C7 and C8) -/

/-- A character acceptable at either end of a canonical key: not whitespace
and not a brace (glossary: canonical keys are whitespace-trimmed and
unbracketed). -/
def okEnd (c : Char) : Bool := !(isSpace c) && !(c == '{') && !(c == '}')

/-- A canonical key in the sense of the spec glossary: uppercase,
whitespace-trimmed, unbracketed. -/
def isCanonicalKey (k : List Char) : Bool :=
  upperL k == k && k.head?.all okEnd && k.getLast?.all okEnd

lemma dropWhile_eq_self_of_head {p : Char → Bool} {k : List Char}
    (h : ∀ c ∈ k.head?, p c = false) : k.dropWhile p = k := by
  cases k with
  | nil => rfl
  | cons c t =>
    apply List.dropWhile_cons_of_neg
    simp only [List.head?_cons, Option.mem_some_iff] at h
    simp [h c rfl]

lemma stripEnds_eq_self {p : Char → Bool} {k : List Char}
    (h1 : ∀ c ∈ k.head?, p c = false) (h2 : ∀ c ∈ k.getLast?, p c = false) :
    ((k.dropWhile p).reverse.dropWhile p).reverse = k := by
  rw [dropWhile_eq_self_of_head h1]
  rw [dropWhile_eq_self_of_head (by simpa using h2)]
  exact List.reverse_reverse k

lemma normKey_canonical_fixed {k : List Char} (h : isCanonicalKey k = true) :
    normKey k = k := by
  simp only [isCanonicalKey, Bool.and_eq_true, beq_iff_eq] at h
  obtain ⟨⟨hup, hhead⟩, hlast⟩ := h
  have hh : ∀ c ∈ k.head?, okEnd c = true := by
    intro c hc
    cases hk : k.head? with
    | none => rw [hk] at hc; cases hc
    | some d =>
      rw [hk] at hc hhead
      cases hc
      exact hhead
  have hl : ∀ c ∈ k.getLast?, okEnd c = true := by
    intro c hc
    cases hk : k.getLast? with
    | none => rw [hk] at hc; cases hc
    | some d =>
      rw [hk] at hc hlast
      cases hc
      exact hlast
  have hOk : ∀ c : Char, okEnd c = true →
      isSpace c = false ∧ ((str "{} ").contains c) = false := by
    intro c hc
    simp only [okEnd, Bool.and_eq_true, Bool.not_eq_true', beq_eq_false_iff_ne,
      ne_eq] at hc
    obtain ⟨⟨hs, hb1⟩, hb2⟩ := hc
    refine ⟨hs, ?_⟩
    have hns : c ≠ ' ' := by
      intro h'
      rw [h'] at hs
      exact absurd hs (by decide)
    rw [show str "{} " = ['{', '}', ' '] from rfl]
    simp [List.contains_cons, hb1, hb2, hns]
  unfold normKey
  rw [show stripWs k = k from ?_, show stripChars (str "{} ") k = k from ?_, hup]
  · unfold stripChars
    exact stripEnds_eq_self (fun c hc => (hOk c (hh c hc)).2)
      (fun c hc => (hOk c (hl c hc)).2)
  · unfold stripWs
    exact stripEnds_eq_self (fun c hc => (hOk c (hh c hc)).1)
      (fun c hc => (hOk c (hl c hc)).1)

/-- C7 counterexample: one application of `upcase_keys` is not a fixpoint of
a second application, refuting the parenthetical equation
normalize-after-normalize = normalize.  The key begins with a brace that
shields an inner tab: the first pass strips only the brace, leaving a key
with leading whitespace, which the second pass then strips. -/
theorem C7_counterexample_upcaseKeys_not_idempotent :
    upcaseKeys (upcaseKeys [(str "\x7b\tA", str "x")]) ≠
      upcaseKeys [(str "\x7b\tA", str "x")] := by decide

/-- C7 (amended): normalizing the four raw keys of the claim yields the
canonical key GROUP_NAME, and normalizing a mapping whose keys are already
canonical (uppercase, ends free of whitespace and braces) yields the
identical mapping. -/
theorem C7_normalizer_canonicalization :
    (normKey (str "{GROUP_NAME}") = str "GROUP_NAME" ∧
     normKey (str "group_name") = str "GROUP_NAME" ∧
     normKey (str " GROUP_NAME ") = str "GROUP_NAME" ∧
     normKey (str "{{GROUP_NAME}}") = str "GROUP_NAME") ∧
    ∀ m : List (List Char × List Char),
      (∀ kv ∈ m, isCanonicalKey kv.1 = true) → upcaseKeys m = m := by
  constructor
  · exact ⟨by decide, by decide, by decide, by decide⟩
  · intro m hm
    unfold upcaseKeys
    conv_rhs => rw [← List.map_id m]
    apply List.map_congr_left
    intro kv hkv
    rw [normKey_canonical_fixed (hm kv hkv)]
    rfl

/-- C7 witness: the amended theorem applied to a concrete canonical mapping. -/
theorem C7_normalizer_canonicalization_witness :
    upcaseKeys [(str "GROUP_NAME", str "Jetour")] =
      [(str "GROUP_NAME", str "Jetour")] :=
  C7_normalizer_canonicalization.2 _ (by decide)

/-- C8 counterexample: on the key `\x7b\x7d`, which is empty after
normalization, the code's normalizer succeeds and silently keeps the empty
canonical key, while the spec-modelled normalizer is required to fail — so
the Placeholder Normalizer does not fail when a key normalizes to empty. -/
theorem C8_counterexample_no_empty_key_validation :
    upcaseKeys [(str "{}", str "x")] = [(([] : List Char), str "x")] ∧
    specNormalizeMapping [(str "{}", str "x")] = none := by
  constructor
  · decide
  · decide

/-- C8 (amended): the code's normalization is total — it never fails, even
on keys that are empty after normalization; on every input whose normalized
keys are all non-empty it agrees with the spec-required behaviour. -/
theorem C8_normalizer_total (m : List (List Char × List Char))
    (h : ∀ kv ∈ m, normKey kv.1 ≠ []) :
    specNormalizeMapping m = some (upcaseKeys m) := by
  unfold specNormalizeMapping
  rw [if_pos]
  rw [List.all_eq_true]
  intro kv hkv
  simpa using h kv hkv

/-- C8 witness: the amended theorem applied to a concrete mapping. -/
theorem C8_normalizer_total_witness :
    specNormalizeMapping [(str "cnpj", str "123")] =
      some (upcaseKeys [(str "cnpj", str "123")]) :=
  C8_normalizer_total _ (by decide)

/-- C9: in the local-DOCX variant's CSV loop (mouapp.py lines 299-319) a row
whose substitution/formatting/DOCX-export raises aborts the whole batch —
the error propagates and the following row is never processed — while the
cloud variant's loop (app.py lines 217-226) records a failure status for the
bad row and continues with the next one. -/
theorem C9_mouapp_batch_aborts_on_row_failure :
    mouappBatch (fun n => if n = 0 then Except.error (str "boom") else Except.ok n)
        [0, 1] = Except.error (str "boom") ∧
    appBatch (fun n => if n = 0 then Except.error (str "boom") else Except.ok n)
        [0, 1] = [false, true] :=
  ⟨rfl, rfl⟩

/-! ### The Formatting Enforcer: characterization of the sequential loop -/

lemma runsText_map_text_preserving {f : Run → Run} (hf : ∀ r, (f r).text = r.text)
    (p : Para) : runsText ⟨p.runs.map f⟩ = runsText p := by
  unfold runsText
  simp only [List.map_map]
  congr 1
  apply List.map_congr_left
  intro r _
  exact hf r

lemma runsText_unboldP (p : Para) : runsText (unboldP p) = runsText p :=
  @runsText_map_text_preserving (fun r => { r with bold := some false })
    (fun _ => rfl) p

lemma runsText_pass1Para (p : Para) : runsText (pass1Para p) = runsText p :=
  @runsText_map_text_preserving pass1Run (fun _ => rfl) p

lemma lowText_unboldP (p : Para) : lowText (unboldP p) = lowText p := by
  unfold lowText paraText
  rw [runsText_unboldP]

lemma lowText_pass1Para (p : Para) : lowText (pass1Para p) = lowText p := by
  unfold lowText paraText
  rw [runsText_pass1Para]

lemma unboldP_unboldP (p : Para) : unboldP (unboldP p) = unboldP p := by
  unfold unboldP
  simp only [List.map_map]
  congr 1

lemma pass1Para_pass1Para (p : Para) : pass1Para (pass1Para p) = pass1Para p := by
  unfold pass1Para
  simp only [List.map_map]
  congr 1

lemma pass1Para_unboldP_pass1Para (p : Para) :
    pass1Para (unboldP (pass1Para p)) = pass1Para p := by
  unfold pass1Para unboldP
  simp only [List.map_map]
  congr 1

/-- The effective un-bolding condition of the enforcement loop at index `i`
for a paragraph `p`: exception-set membership, exception phrase, or the bare
section-number text. -/
def condP (exc : Nat → Bool) (i : Nat) (p : Para) : Bool :=
  exc i || isExceptionPhrase (lowText p) || isTwo (lowText p)

lemma condP_unboldP (exc : Nat → Bool) (i : Nat) (p : Para) :
    condP exc i (unboldP p) = condP exc i p := by
  unfold condP
  rw [lowText_unboldP]

lemma condP_pass1Para (exc : Nat → Bool) (i : Nat) (p : Para) :
    condP exc i (pass1Para p) = condP exc i p := by
  unfold condP
  rw [lowText_pass1Para]

/-- Whether iteration `n - 1` of the loop un-bolds paragraph `n` as the
neighbour of a bare "2." heading. -/
def nbFlag (exc : Nat → Bool) (ps : List Para) : Nat → Bool
  | 0 => false
  | n + 1 =>
    match ps[n]?, ps[n + 1]? with
    | some p, some q =>
      !(exc n || isExceptionPhrase (lowText p)) && isTwo (lowText p) &&
        isExceptionPhrase (lowText q)
    | _, _ => false

lemma nbFlag_succ_eq {exc : Nat → Bool} {ps : List Para} {n : Nat} {pn q : Para}
    (hn : ps[n]? = some pn) (hq : ps[n + 1]? = some q) :
    nbFlag exc ps (n + 1) =
      (!(exc n || isExceptionPhrase (lowText pn)) && isTwo (lowText pn) &&
        isExceptionPhrase (lowText q)) := by
  rw [nbFlag, hn, hq]

lemma nbFlag_succ_none {exc : Nat → Bool} {ps : List Para} {n : Nat}
    (hq : ps[n + 1]? = none) : nbFlag exc ps (n + 1) = false := by
  rw [nbFlag, hq]
  cases ps[n]? <;> rfl

lemma nbFlag_phrase {exc : Nat → Bool} {ps : List Para} {n : Nat} {pn : Para}
    (h : nbFlag exc ps n = true) (hn : ps[n]? = some pn) :
    isExceptionPhrase (lowText pn) = true := by
  cases n with
  | zero => rw [nbFlag] at h; cases h
  | succ m =>
    rw [nbFlag, hn] at h
    cases hm : ps[m]? with
    | none => rw [hm] at h; cases h
    | some pm =>
      rw [hm] at h
      simp only [Bool.and_eq_true] at h
      exact h.2

lemma length_pass2step (exc : Nat → Bool) (ps : List Para) (i : Nat) :
    (pass2step exc ps i).length = ps.length := by
  unfold pass2step
  split
  next => rfl
  next p hp =>
    split
    next => simp
    next =>
      split
      next =>
        split
        next => simp
        next q hq =>
          split
          next => simp
          next => simp
      next => rfl

lemma length_pass2_fold (exc : Nat → Bool) (l : List Nat) (ps : List Para) :
    (l.foldl (pass2step exc) ps).length = ps.length := by
  induction l generalizing ps with
  | nil => rfl
  | cons i t ih => rw [List.foldl_cons, ih, length_pass2step]

lemma length_pass2 (exc : Nat → Bool) (ps : List Para) :
    (pass2 exc ps).length = ps.length :=
  length_pass2_fold exc _ ps

/-- Unfolding of one loop iteration when the index is in range, with the
inner lookup pushed through the `set`. -/
lemma pass2step_eq_of_get (exc : Nat → Bool) (A : List Para) (n : Nat) (pn : Para)
    (hAn : A[n]? = some pn) :
    pass2step exc A n =
      if exc n || isExceptionPhrase (lowText pn) then A.set n (unboldP pn)
      else if isTwo (lowText pn) then
        match A[n + 1]? with
        | none => A.set n (unboldP pn)
        | some q =>
          if isExceptionPhrase (lowText q) then
            (A.set n (unboldP pn)).set (n + 1) (unboldP q)
          else A.set n (unboldP pn)
      else A := by
  unfold pass2step
  simp only [hAn]
  rw [List.getElem?_set_ne (show n ≠ n + 1 by omega)]

lemma pass2step_none {exc : Nat → Bool} {A : List Para} {i : Nat}
    (h : A[i]? = none) : pass2step exc A i = A := by
  unfold pass2step
  split
  next => rfl
  next p hp => rw [h] at hp; cases hp

/-- Invariant of the enforcement loop: after the first `n` iterations,
paragraph `j` is un-bolded exactly when its own condition already fired
(`j < n`) or when iteration `n - 1` un-bolded it as the neighbour of a bare
"2." heading. -/
lemma pass2_fold_get (exc : Nat → Bool) (ps : List Para) :
    ∀ (n j : Nat) (p : Para), ps[j]? = some p →
      ((List.range n).foldl (pass2step exc) ps)[j]? =
        some (if (j < n ∧ condP exc j p = true) ∨ (j = n ∧ nbFlag exc ps n = true)
              then unboldP p else p) := by
  intro n
  induction n with
  | zero =>
    intro j p hj
    have hcond : ¬ ((j < 0 ∧ condP exc j p = true) ∨
        (j = 0 ∧ nbFlag exc ps 0 = true)) := by
      rintro (⟨h1, _⟩ | ⟨_, h2⟩)
      · omega
      · simp only [nbFlag] at h2
        cases h2
    simp only [List.range_zero, List.foldl_nil]
    rw [if_neg hcond]
    exact hj
  | succ n ih =>
    intro j p hj
    have hjlen : j < ps.length := by
      rcases List.getElem?_eq_some_iff.mp hj with ⟨h, _⟩
      exact h
    rw [List.range_succ, List.foldl_append, List.foldl_cons, List.foldl_nil]
    have hlenA : ((List.range n).foldl (pass2step exc) ps).length = ps.length :=
      length_pass2_fold exc _ ps
    cases hn : ps[n]? with
    | none =>
      have hnlen : ps.length ≤ n := List.getElem?_eq_none_iff.mp hn
      have hAn : ((List.range n).foldl (pass2step exc) ps)[n]? = none := by
        rw [List.getElem?_eq_none]
        rw [hlenA]
        exact hnlen
      rw [pass2step_none hAn, ih j p hj]
      congr 1
      refine if_congr ?_ rfl rfl
      constructor
      · rintro (⟨h1, h2⟩ | ⟨h1, _⟩)
        · exact Or.inl ⟨by omega, h2⟩
        · exfalso; omega
      · rintro (⟨h1, h2⟩ | ⟨h1, _⟩)
        · exact Or.inl ⟨by omega, h2⟩
        · exfalso; omega
    | some pn =>
      have hAn : ((List.range n).foldl (pass2step exc) ps)[n]? =
          some (if nbFlag exc ps n = true then unboldP pn else pn) := by
        rw [ih n pn hn]
        congr 1
        refine if_congr ?_ rfl rfl
        constructor
        · rintro (⟨h1, _⟩ | ⟨_, h2⟩)
          · exfalso; omega
          · exact h2
        · intro h2
          exact Or.inr ⟨rfl, h2⟩
      obtain ⟨pn', hpn', hAn⟩ :
          ∃ pn', (if nbFlag exc ps n = true then unboldP pn else pn) = pn' ∧
            ((List.range n).foldl (pass2step exc) ps)[n]? = some pn' :=
        ⟨_, rfl, hAn⟩
      have hlow : lowText pn' = lowText pn := by
        rw [← hpn']
        split
        · exact lowText_unboldP pn
        · rfl
      have hub : unboldP pn' = unboldP pn := by
        rw [← hpn']
        split
        · exact unboldP_unboldP pn
        · rfl
      have hstep := pass2step_eq_of_get exc _ n pn' hAn
      rw [hlow, hub] at hstep
      have hnA : n < ((List.range n).foldl (pass2step exc) ps).length := by
        rw [hlenA]
        rcases List.getElem?_eq_some_iff.mp hn with ⟨h, _⟩
        exact h
      cases hb1 : (exc n || isExceptionPhrase (lowText pn)) with
      | true =>
        rw [if_pos hb1] at hstep
        rw [hstep]
        have hnb1 : nbFlag exc ps (n + 1) = false := by
          cases hq : ps[n + 1]? with
          | none => exact nbFlag_succ_none hq
          | some q =>
            rw [nbFlag_succ_eq hn hq, hb1]
            simp
        by_cases hjn : j = n
        · subst hjn
          have hp : pn = p := Option.some.inj (hn.symm.trans hj)
          subst hp
          rw [List.getElem?_set_self hnA]
          rw [if_pos]
          left
          refine ⟨by omega, ?_⟩
          unfold condP
          simp only [Bool.or_eq_true] at hb1 ⊢
          tauto
        · rw [List.getElem?_set_ne (show n ≠ j from fun h => hjn h.symm)]
          rw [ih j p hj]
          congr 1
          refine if_congr ?_ rfl rfl
          constructor
          · rintro (⟨h1, h2⟩ | ⟨h1, _⟩)
            · exact Or.inl ⟨by omega, h2⟩
            · exact absurd h1 hjn
          · rintro (⟨h1, h2⟩ | ⟨h1, h2⟩)
            · exact Or.inl ⟨by omega, h2⟩
            · rw [hnb1] at h2; cases h2
      | false =>
        rw [if_neg (by rw [hb1]; exact Bool.false_ne_true)] at hstep
        have hor : exc n = false ∧ isExceptionPhrase (lowText pn) = false :=
          Bool.or_eq_false_iff.mp hb1
        cases hb2 : isTwo (lowText pn) with
        | true =>
          rw [if_pos hb2] at hstep
          cases hq : ps[n + 1]? with
          | some q =>
            have hno : ¬ ((n + 1 < n ∧ condP exc (n + 1) q = true) ∨
                (n + 1 = n ∧ nbFlag exc ps n = true)) := by
              rintro (⟨h1, _⟩ | ⟨h1, _⟩) <;> omega
            have hAq : ((List.range n).foldl (pass2step exc) ps)[n + 1]? = some q := by
              rw [ih (n + 1) q hq, if_neg hno]
            simp only [hAq] at hstep
            cases hph : isExceptionPhrase (lowText q) with
            | true =>
              rw [if_pos hph] at hstep
              rw [hstep]
              have hnb1 : nbFlag exc ps (n + 1) = true := by
                rw [nbFlag_succ_eq hn hq, hb1, hb2, hph]
                rfl
              by_cases hjn : j = n
              · subst hjn
                have hp : pn = p := Option.some.inj (hn.symm.trans hj)
                subst hp
                rw [List.getElem?_set_ne (show j + 1 ≠ j by omega)]
                rw [List.getElem?_set_self hnA]
                rw [if_pos]
                left
                refine ⟨by omega, ?_⟩
                unfold condP
                rw [hb2]
                simp
              · by_cases hjn1 : j = n + 1
                · subst hjn1
                  have hqp : q = p := Option.some.inj (hq.symm.trans hj)
                  subst hqp
                  have hlen1 : n + 1 <
                      (((List.range n).foldl (pass2step exc) ps).set n
                        (unboldP pn)).length := by
                    rw [List.length_set, hlenA]
                    exact hjlen
                  rw [List.getElem?_set_self hlen1]
                  rw [if_pos (Or.inr ⟨rfl, hnb1⟩)]
                · have h1 : n + 1 ≠ j := fun h => hjn1 h.symm
                  have h2 : n ≠ j := fun h => hjn h.symm
                  rw [List.getElem?_set_ne h1, List.getElem?_set_ne h2]
                  rw [ih j p hj]
                  congr 1
                  refine if_congr ?_ rfl rfl
                  constructor
                  · rintro (⟨ha, hb⟩ | ⟨ha, _⟩)
                    · exact Or.inl ⟨by omega, hb⟩
                    · exact absurd ha hjn
                  · rintro (⟨ha, hb⟩ | ⟨ha, _⟩)
                    · exact Or.inl ⟨by omega, hb⟩
                    · exact absurd ha hjn1
            | false =>
              rw [if_neg (by rw [hph]; exact Bool.false_ne_true)] at hstep
              rw [hstep]
              have hnb1 : nbFlag exc ps (n + 1) = false := by
                rw [nbFlag_succ_eq hn hq, hph]
                simp
              by_cases hjn : j = n
              · subst hjn
                have hp : pn = p := Option.some.inj (hn.symm.trans hj)
                subst hp
                rw [List.getElem?_set_self hnA]
                rw [if_pos]
                left
                refine ⟨by omega, ?_⟩
                unfold condP
                rw [hb2]
                simp
              · have h2 : n ≠ j := fun h => hjn h.symm
                rw [List.getElem?_set_ne h2]
                rw [ih j p hj]
                congr 1
                refine if_congr ?_ rfl rfl
                constructor
                · rintro (⟨ha, hb⟩ | ⟨ha, _⟩)
                  · exact Or.inl ⟨by omega, hb⟩
                  · exact absurd ha hjn
                · rintro (⟨ha, hb⟩ | ⟨ha, hb⟩)
                  · exact Or.inl ⟨by omega, hb⟩
                  · rw [hnb1] at hb
                    cases hb
          | none =>
            have hAq : ((List.range n).foldl (pass2step exc) ps)[n + 1]? = none := by
              rw [List.getElem?_eq_none]
              rw [hlenA]
              exact List.getElem?_eq_none_iff.mp hq
            simp only [hAq] at hstep
            rw [hstep]
            have hnb1 : nbFlag exc ps (n + 1) = false := nbFlag_succ_none hq
            by_cases hjn : j = n
            · subst hjn
              have hp : pn = p := Option.some.inj (hn.symm.trans hj)
              subst hp
              rw [List.getElem?_set_self hnA]
              rw [if_pos]
              left
              refine ⟨by omega, ?_⟩
              unfold condP
              rw [hb2]
              simp
            · have h2 : n ≠ j := fun h => hjn h.symm
              rw [List.getElem?_set_ne h2]
              rw [ih j p hj]
              congr 1
              refine if_congr ?_ rfl rfl
              constructor
              · rintro (⟨ha, hb⟩ | ⟨ha, _⟩)
                · exact Or.inl ⟨by omega, hb⟩
                · exact absurd ha hjn
              · rintro (⟨ha, hb⟩ | ⟨ha, hb⟩)
                · exact Or.inl ⟨by omega, hb⟩
                · rw [hnb1] at hb
                  cases hb
        | false =>
          rw [if_neg (by rw [hb2]; exact Bool.false_ne_true)] at hstep
          rw [hstep]
          have hnbn : nbFlag exc ps n = false := by
            cases h : nbFlag exc ps n
            · rfl
            · have hphr := nbFlag_phrase h hn
              rw [hor.2] at hphr
              cases hphr
          have hnb1 : nbFlag exc ps (n + 1) = false := by
            cases hq : ps[n + 1]? with
            | none => exact nbFlag_succ_none hq
            | some q =>
              rw [nbFlag_succ_eq hn hq, hb2]
              simp
          by_cases hjn : j = n
          · subst hjn
            have hp : pn = p := Option.some.inj (hn.symm.trans hj)
            subst hp
            have hcnd : condP exc j pn = false := by
              unfold condP
              rw [hor.1, hor.2, hb2]
              rfl
            have hno : ¬ ((j < j + 1 ∧ condP exc j pn = true) ∨
                (j = j + 1 ∧ nbFlag exc ps (j + 1) = true)) := by
              rintro (⟨_, hc⟩ | ⟨he, _⟩)
              · rw [hcnd] at hc
                cases hc
              · omega
            rw [hAn, ← hpn', hnbn, if_neg hno]
            rfl
          · rw [ih j p hj]
            congr 1
            refine if_congr ?_ rfl rfl
            constructor
            · rintro (⟨ha, hb⟩ | ⟨ha, _⟩)
              · exact Or.inl ⟨by omega, hb⟩
              · exact absurd ha hjn
            · rintro (⟨ha, hb⟩ | ⟨ha, hb⟩)
              · exact Or.inl ⟨by omega, hb⟩
              · rw [hnb1] at hb
                cases hb

/-- Characterization of the full un-bolding loop: paragraph `j` ends up
un-bolded exactly when the exception set, an exception phrase, or the bare
section-number text fires at index `j`; the neighbour rule adds nothing
because it only fires on phrase-matching neighbours. -/
lemma pass2_get (exc : Nat → Bool) (ps : List Para) (j : Nat) (p : Para)
    (hj : ps[j]? = some p) :
    (pass2 exc ps)[j]? = some (if condP exc j p = true then unboldP p else p) := by
  have hjlen : j < ps.length := by
    rcases List.getElem?_eq_some_iff.mp hj with ⟨h, _⟩
    exact h
  unfold pass2
  rw [pass2_fold_get exc ps ps.length j p hj]
  congr 1
  refine if_congr ?_ rfl rfl
  constructor
  · rintro (⟨_, h2⟩ | ⟨h1, _⟩)
    · exact h2
    · exfalso; omega
  · intro h2
    exact Or.inl ⟨hjlen, h2⟩

lemma length_enforce (exc : Nat → Bool) (ps : List Para) :
    (enforceCalibri11AndBoldWithExceptions exc ps).length = ps.length := by
  unfold enforceCalibri11AndBoldWithExceptions
  rw [length_pass2, List.length_map]

/-- Pointwise description of the whole Formatting Enforcer: first pass makes
every run bold Calibri 11, second pass un-bolds exactly the paragraphs whose
condition holds. -/
lemma enforce_get (exc : Nat → Bool) (ps : List Para) (j : Nat) (p : Para)
    (hj : ps[j]? = some p) :
    (enforceCalibri11AndBoldWithExceptions exc ps)[j]? =
      some (if condP exc j p = true then unboldP (pass1Para p) else pass1Para p) := by
  unfold enforceCalibri11AndBoldWithExceptions
  have hmap : (ps.map pass1Para)[j]? = some (pass1Para p) := by
    rw [List.getElem?_map, hj]
    rfl
  rw [pass2_get exc _ j (pass1Para p) hmap]
  congr 1
  refine if_congr ?_ rfl rfl
  rw [condP_pass1Para]

/-- C4: the Formatting Enforcer is idempotent — for every document traversal
and every Exception Set (as a predicate over traversal indices), applying it
twice with the same set gives the same paragraph list (hence the same bold
flag, font name, and font size on every run) as applying it once. -/
theorem C4_enforce_idempotent (exc : Nat → Bool) (ps : List Para) :
    enforceCalibri11AndBoldWithExceptions exc
        (enforceCalibri11AndBoldWithExceptions exc ps) =
      enforceCalibri11AndBoldWithExceptions exc ps := by
  apply List.ext_getElem?
  intro j
  cases hj : ps[j]? with
  | none =>
    have hlen : ps.length ≤ j := List.getElem?_eq_none_iff.mp hj
    rw [List.getElem?_eq_none (by rw [length_enforce, length_enforce]; exact hlen),
        List.getElem?_eq_none (by rw [length_enforce]; exact hlen)]
  | some p =>
    have h1 := enforce_get exc ps j p hj
    have h2 := enforce_get exc _ j _ h1
    rw [h2, h1]
    cases hc : condP exc j p with
    | true =>
      rw [if_pos (show (true : Bool) = true from rfl)]
      have hx : condP exc j (unboldP (pass1Para p)) = true := by
        rw [condP_unboldP, condP_pass1Para]
        exact hc
      rw [if_pos hx, pass1Para_unboldP_pass1Para]
    | false =>
      rw [if_neg (show ¬ (false : Bool) = true from Bool.false_ne_true)]
      have hx : condP exc j (pass1Para p) = false := by
        rw [condP_pass1Para]
        exact hc
      rw [if_neg (by rw [hx]; exact Bool.false_ne_true), pass1Para_pass1Para]

/-- Every run of the paragraph carries an explicit non-bold flag. -/
def nonBold (p : Para) : Bool := p.runs.all (fun r => r.bold == some false)

/-- Every run of the paragraph carries an explicit bold flag. -/
def allBold (p : Para) : Bool := p.runs.all (fun r => r.bold == some true)

lemma nonBold_unboldP (p : Para) : nonBold (unboldP p) = true := by
  unfold nonBold unboldP
  simp

lemma allBold_pass1Para (p : Para) : allBold (pass1Para p) = true := by
  unfold allBold pass1Para pass1Run
  simp

/-- C5: split-heading rule.  After the formatting pass, (i) a paragraph whose
normalized text is "2." followed by one whose text is "Especificações e
alterações acordadas:" are both non-bold; (ii) a single paragraph "2.
Especificações e alterações acordadas:" is non-bold; (iii) a paragraph
"2. Prazos" (no heading-vocabulary match, not in the exception set) keeps
every run bold. -/
theorem C5_split_heading_rule (ps : List Para) (exc : Nat → Bool) (i : Nat) :
    (∀ p q p' q', ps[i]? = some p → ps[i + 1]? = some q →
      paraText p = str "2." →
      paraText q = str "Especificações e alterações acordadas:" →
      (enforceCalibri11AndBoldWithExceptions exc ps)[i]? = some p' →
      (enforceCalibri11AndBoldWithExceptions exc ps)[i + 1]? = some q' →
      nonBold p' = true ∧ nonBold q' = true) ∧
    (∀ p p', ps[i]? = some p →
      paraText p = str "2. Especificações e alterações acordadas:" →
      (enforceCalibri11AndBoldWithExceptions exc ps)[i]? = some p' →
      nonBold p' = true) ∧
    (∀ p p', ps[i]? = some p → paraText p = str "2. Prazos" → exc i = false →
      (enforceCalibri11AndBoldWithExceptions exc ps)[i]? = some p' →
      allBold p' = true) := by
  refine ⟨?_, ?_, ?_⟩
  · intro p q p' q' hp hq htp htq hp' hq'
    have hlp : lowText p = str "2." := by
      unfold lowText
      rw [htp]
      decide
    have hlq : lowText q = str "especificações e alterações acordadas:" := by
      unfold lowText
      rw [htq]
      decide
    have hcp : condP exc i p = true := by
      unfold condP
      rw [hlp, show isTwo (str "2.") = true from by decide]
      simp
    have hcq : condP exc (i + 1) q = true := by
      unfold condP
      rw [hlq,
        show isExceptionPhrase (str "especificações e alterações acordadas:") =
          true from by decide]
      simp
    rw [enforce_get exc ps i p hp, if_pos hcp] at hp'
    rw [enforce_get exc ps (i + 1) q hq, if_pos hcq] at hq'
    rw [← Option.some.inj hp', ← Option.some.inj hq']
    exact ⟨nonBold_unboldP _, nonBold_unboldP _⟩
  · intro p p' hp htp hp'
    have hlp : lowText p = str "2. especificações e alterações acordadas:" := by
      unfold lowText
      rw [htp]
      decide
    have hcp : condP exc i p = true := by
      unfold condP
      rw [hlp,
        show isExceptionPhrase (str "2. especificações e alterações acordadas:") =
          true from by decide]
      simp
    rw [enforce_get exc ps i p hp, if_pos hcp] at hp'
    rw [← Option.some.inj hp']
    exact nonBold_unboldP _
  · intro p p' hp htp hexc hp'
    have hlp : lowText p = str "2. prazos" := by
      unfold lowText
      rw [htp]
      decide
    have hcp : condP exc i p = false := by
      unfold condP
      rw [hlp, hexc, show isExceptionPhrase (str "2. prazos") = false from by decide,
        show isTwo (str "2. prazos") = false from by decide]
      rfl
    rw [enforce_get exc ps i p hp,
      if_neg (by rw [hcp]; exact Bool.false_ne_true)] at hp'
    rw [← Option.some.inj hp']
    exact allBold_pass1Para p

/-- C5 witness: the split-heading part of the rule applied to a concrete
two-paragraph document traversal. -/
theorem C5_split_heading_rule_witness :
    nonBold (unboldP (pass1Para (Para.mk [mkRun (str "2.")]))) = true ∧
    nonBold (unboldP (pass1Para
      (Para.mk [mkRun (str "Especificações e alterações acordadas:")]))) = true :=
  (C5_split_heading_rule
      [Para.mk [mkRun (str "2.")],
       Para.mk [mkRun (str "Especificações e alterações acordadas:")]]
      (fun _ => false) 0).1
    _ _ _ _ rfl rfl (by decide) (by decide) (by decide) (by decide)

/-- C6: N/A rule.  After the formatting pass a paragraph whose entire
normalized text is "N/A", "n/a." or "N / A" is classified as an exception
and rendered non-bold; a paragraph "Not applicable" (not in the exception
set) does not match the strict N/A pattern and keeps every run bold. -/
theorem C6_na_rule (ps : List Para) (exc : Nat → Bool) (i : Nat) :
    (∀ p p', ps[i]? = some p →
      (paraText p = str "N/A" ∨ paraText p = str "n/a." ∨
        paraText p = str "N / A") →
      (enforceCalibri11AndBoldWithExceptions exc ps)[i]? = some p' →
      nonBold p' = true) ∧
    (∀ p p', ps[i]? = some p → paraText p = str "Not applicable" →
      exc i = false →
      (enforceCalibri11AndBoldWithExceptions exc ps)[i]? = some p' →
      allBold p' = true) := by
  constructor
  · intro p p' hp htp hp'
    have hcp : condP exc i p = true := by
      unfold condP
      rcases htp with h | h | h
      · rw [show lowText p = str "n/a" from by unfold lowText; rw [h]; decide,
          show isExceptionPhrase (str "n/a") = true from by decide]
        simp
      · rw [show lowText p = str "n/a." from by unfold lowText; rw [h]; decide,
          show isExceptionPhrase (str "n/a.") = true from by decide]
        simp
      · rw [show lowText p = str "n / a" from by unfold lowText; rw [h]; decide,
          show isExceptionPhrase (str "n / a") = true from by decide]
        simp
    rw [enforce_get exc ps i p hp, if_pos hcp] at hp'
    rw [← Option.some.inj hp']
    exact nonBold_unboldP _
  · intro p p' hp htp hexc hp'
    have hcp : condP exc i p = false := by
      unfold condP
      rw [show lowText p = str "not applicable" from by unfold lowText; rw [htp]; decide,
        hexc, show isExceptionPhrase (str "not applicable") = false from by decide,
        show isTwo (str "not applicable") = false from by decide]
      rfl
    rw [enforce_get exc ps i p hp,
      if_neg (by rw [hcp]; exact Bool.false_ne_true)] at hp'
    rw [← Option.some.inj hp']
    exact allBold_pass1Para p

/-- C6 witness: the N/A part applied to a concrete one-paragraph traversal. -/
theorem C6_na_rule_witness :
    nonBold (unboldP (pass1Para (Para.mk [mkRun (str "N/A")]))) = true :=
  (C6_na_rule [Para.mk [mkRun (str "N/A")]] (fun _ => false) 0).1
    _ _ rfl (Or.inl (by decide)) (by decide)

/-- C10 (implicit): the Formatting Enforcer un-bolds every paragraph whose
lowered normalized text is exactly "2." or "2" unconditionally — even when
the following paragraph matches no exception phrase — and the neighbour of
such a paragraph is un-bolded exactly when it matches an exception phrase
(otherwise, not being in the exception set and not itself a bare "2.", it
keeps the fully-bold state of the first pass). -/
theorem C10_bare_two_unconditional (ps : List Para) (exc : Nat → Bool) (i : Nat)
    (p : Para) (hp : ps[i]? = some p) (h2 : isTwo (lowText p) = true) :
    ((enforceCalibri11AndBoldWithExceptions exc ps)[i]? =
      some (unboldP (pass1Para p))) ∧
    (∀ q, ps[i + 1]? = some q →
      (isExceptionPhrase (lowText q) = true →
        (enforceCalibri11AndBoldWithExceptions exc ps)[i + 1]? =
          some (unboldP (pass1Para q))) ∧
      (isExceptionPhrase (lowText q) = false → exc (i + 1) = false →
        isTwo (lowText q) = false →
        (enforceCalibri11AndBoldWithExceptions exc ps)[i + 1]? =
          some (pass1Para q))) := by
  constructor
  · have hcp : condP exc i p = true := by
      unfold condP
      rw [h2]
      simp
    rw [enforce_get exc ps i p hp, if_pos hcp]
  · intro q hq
    constructor
    · intro hph
      have hcq : condP exc (i + 1) q = true := by
        unfold condP
        rw [hph]
        simp
      rw [enforce_get exc ps (i + 1) q hq, if_pos hcq]
    · intro hph hexc h2q
      have hcq : condP exc (i + 1) q = false := by
        unfold condP
        rw [hph, hexc, h2q]
        rfl
      rw [enforce_get exc ps (i + 1) q hq,
        if_neg (by rw [hcq]; exact Bool.false_ne_true)]

/-- C10 witness: the bare "2." rule applied to a concrete two-paragraph
traversal whose second paragraph matches no exception phrase. -/
theorem C10_bare_two_unconditional_witness :
    ((enforceCalibri11AndBoldWithExceptions (fun _ => false)
        [Para.mk [mkRun (str "2.")], Para.mk [mkRun (str "Prazos")]])[0]? =
      some (unboldP (pass1Para (Para.mk [mkRun (str "2.")])))) ∧
    ((enforceCalibri11AndBoldWithExceptions (fun _ => false)
        [Para.mk [mkRun (str "2.")], Para.mk [mkRun (str "Prazos")]])[1]? =
      some (pass1Para (Para.mk [mkRun (str "Prazos")]))) := by
  have h := C10_bare_two_unconditional
    [Para.mk [mkRun (str "2.")], Para.mk [mkRun (str "Prazos")]]
    (fun _ => false) 0 (Para.mk [mkRun (str "2.")]) rfl (by decide)
  exact ⟨h.1, ((h.2 (Para.mk [mkRun (str "Prazos")]) rfl).2 (by decide) rfl (by decide))⟩

/-! ### The Substitution Engine: case-insensitive literal replacement -/

lemma ciEqChar_iff {a b : Char} : ciEqChar a b = true ↔ a.toLower = b.toLower := by
  simp [ciEqChar]

lemma ciEq_lbrace_iff {c : Char} : ciEqChar '{' c = true ↔ c = '{' := by
  rw [ciEqChar_iff]
  constructor
  · intro h
    exact toLower_fixed (by right; decide) h.symm
  · rintro rfl
    rfl

lemma ciEq_keyChar_lbrace {a : Char} (h : isKeyChar a = true) :
    ciEqChar a '{' = false := by
  cases hE : ciEqChar a '{'
  · rfl
  · exfalso
    have h1 := ciEqChar_iff.mp hE
    have h2 := congrArg Char.toNat h1
    have h3 := toNat_toLower_keyChar h
    rw [show (Char.toLower '{').toNat = 123 from by decide] at h2
    omega

lemma ciEq_keyChar_rbrace {a : Char} (h : isKeyChar a = true) :
    ciEqChar a '}' = false := by
  cases hE : ciEqChar a '}'
  · rfl
  · exfalso
    have h1 := ciEqChar_iff.mp hE
    have h2 := congrArg Char.toNat h1
    have h3 := toNat_toLower_keyChar h
    rw [show (Char.toLower '}').toNat = 125 from by decide] at h2
    omega

lemma ciEq_rbrace_keyChar {c : Char} (h : isKeyChar c = true) :
    ciEqChar '}' c = false := by
  cases hE : ciEqChar '}' c
  · rfl
  · exfalso
    have h1 := (ciEqChar_iff.mp hE).symm
    have h2 := congrArg Char.toNat h1
    have h3 := toNat_toLower_keyChar h
    rw [show (Char.toLower '}').toNat = 125 from by decide] at h2
    omega

lemma allKeyChar_mem {k : List Char} (h : allKeyChar k = true) {c : Char}
    (hc : c ∈ k) : isKeyChar c = true := by
  unfold allKeyChar at h
  exact List.all_eq_true.mp h c hc

lemma braceFree_mem {s : List Char} (h : braceFree s = true) {c : Char}
    (hc : c ∈ s) : c ≠ '{' ∧ c ≠ '}' := by
  unfold braceFree at h
  have := List.all_eq_true.mp h c hc
  simp only [Bool.not_eq_true', Bool.or_eq_false_iff, beq_eq_false_iff_ne] at this
  exact this

lemma keyChar_braceFree {k : List Char} (h : allKeyChar k = true) :
    braceFree k = true := by
  unfold braceFree
  rw [List.all_eq_true]
  intro c hc
  have hk := allKeyChar_mem h hc
  have h1 : c ≠ '{' := by
    rintro rfl
    exact absurd hk (by decide)
  have h2 : c ≠ '}' := by
    rintro rfl
    exact absurd hk (by decide)
  simp [h1, h2]

lemma tokenOf_ne_nil (k : List Char) : tokenOf k ≠ [] := by
  simp [tokenOf]

lemma tokenOf_length (k : List Char) : (tokenOf k).length = k.length + 4 := by
  simp [tokenOf]

lemma lowerL_length (s : List Char) : (lowerL s).length = s.length := by
  simp [lowerL]

lemma lowerL_tokenOf (k : List Char) :
    lowerL (tokenOf k) = tokenOf (lowerL k) := by
  simp [lowerL, tokenOf]

/-! Basic facts about the case-insensitive scanners. -/

lemma ciStarts_cons_false {a b : Char} {as bs : List Char}
    (h : ciEqChar a b = false) : ciStarts (a :: as) (b :: bs) = false := by
  simp [ciStarts, h]

lemma ciStarts_cons_true {a b : Char} {as bs : List Char}
    (h : ciEqChar a b = true) :
    ciStarts (a :: as) (b :: bs) = ciStarts as bs := by
  simp [ciStarts, h]

lemma ciStarts_append_of_lower {p p' t : List Char} (h : lowerL p' = lowerL p) :
    ciStarts p (p' ++ t) = true := by
  induction p generalizing p' with
  | nil => rfl
  | cons a as ih =>
    cases p' with
    | nil => exact absurd h.symm (by simp [lowerL])
    | cons b bs =>
      simp only [lowerL, List.map_cons, List.cons.injEq] at h
      rw [List.cons_append,
        ciStarts_cons_true (ciEqChar_iff.mpr h.1.symm), ih h.2]

lemma ciStarts_exists_of {p s : List Char} (h : ciStarts p s = true) :
    ∃ p' t, s = p' ++ t ∧ lowerL p' = lowerL p := by
  induction p generalizing s with
  | nil => exact ⟨[], s, rfl, rfl⟩
  | cons a as ih =>
    cases s with
    | nil => exact absurd h (by simp [ciStarts])
    | cons b bs =>
      simp only [ciStarts, Bool.and_eq_true] at h
      obtain ⟨p', t, rfl, hl⟩ := ih h.2
      refine ⟨b :: p', t, rfl, ?_⟩
      simp only [lowerL, List.map_cons, List.cons.injEq]
      exact ⟨(ciEqChar_iff.mp h.1).symm, hl⟩

lemma ciStarts_drop : ∀ (a p t : List Char), a.length ≤ p.length →
    ciStarts p (a ++ t) = true → ciStarts (p.drop a.length) t = true := by
  intro a
  induction a with
  | nil => intro p t _ h; exact h
  | cons c a2 ih =>
    intro p t hlen h
    cases p with
    | nil => simp at hlen
    | cons q p2 =>
      simp only [List.cons_append, ciStarts, Bool.and_eq_true] at h
      exact ih p2 t (by simpa using hlen) h.2

lemma ciHas_nil_iff {pat : List Char} : ciHas pat [] = ciStarts pat [] := rfl

lemma ciHas_cons_of {pat t : List Char} {c : Char} (h : ciHas pat t = true) :
    ciHas pat (c :: t) = true := by
  simp [ciHas, h]

lemma ciHas_iff_exists {pat s : List Char} :
    ciHas pat s = true ↔ ∃ a b, s = a ++ b ∧ ciStarts pat b = true := by
  constructor
  · intro h
    induction s with
    | nil => exact ⟨[], [], rfl, h⟩
    | cons c rest ih =>
      simp only [ciHas, Bool.or_eq_true] at h
      rcases h with h | h
      · exact ⟨[], c :: rest, rfl, h⟩
      · obtain ⟨a, b, rfl, hb⟩ := ih h
        exact ⟨c :: a, b, rfl, hb⟩
  · rintro ⟨a, b, rfl, hb⟩
    induction a with
    | nil =>
      cases b with
      | nil => exact hb
      | cons c rest => simp [ciHas, hb]
    | cons c a2 ih => simp [ciHas, ih]

lemma ciHas_occurrence {pat s : List Char} :
    ciHas pat s = true ↔ ∃ a m b, s = a ++ m ++ b ∧ lowerL m = lowerL pat := by
  rw [ciHas_iff_exists]
  constructor
  · rintro ⟨a, b, rfl, hb⟩
    obtain ⟨m, t, rfl, hm⟩ := ciStarts_exists_of hb
    exact ⟨a, m, t, by simp, hm⟩
  · rintro ⟨a, m, b, rfl, hm⟩
    exact ⟨a, m ++ b, by simp, ciStarts_append_of_lower hm⟩

lemma startsB_iff {p s : List Char} : startsB p s = true ↔ ∃ t, s = p ++ t := by
  induction p generalizing s with
  | nil => simp [startsB]
  | cons a as ih =>
    cases s with
    | nil =>
      simp only [startsB]
      constructor
      · intro h; cases h
      · rintro ⟨t, h⟩; cases h
    | cons b bs =>
      simp only [startsB, Bool.and_eq_true, beq_iff_eq, ih, List.cons_append,
        List.cons.injEq]
      constructor
      · rintro ⟨rfl, t, rfl⟩
        exact ⟨t, rfl, rfl⟩
      · rintro ⟨t, rfl, rfl⟩
        exact ⟨rfl, t, rfl⟩

lemma hasSub_iff {p s : List Char} :
    hasSub p s = true ↔ ∃ a b, s = a ++ p ++ b := by
  constructor
  · intro h
    induction s with
    | nil =>
      obtain ⟨t, ht⟩ := startsB_iff.mp h
      exact ⟨[], t, by simpa using ht⟩
    | cons c rest ih =>
      simp only [hasSub, Bool.or_eq_true] at h
      rcases h with h | h
      · obtain ⟨t, ht⟩ := startsB_iff.mp h
        exact ⟨[], t, by simpa using ht⟩
      · obtain ⟨a, b, rfl⟩ := ih h
        exact ⟨c :: a, b, rfl⟩
  · rintro ⟨a, b, rfl⟩
    induction a with
    | nil =>
      have hs : hasSub p (p ++ b) = true := by
        cases hpb : p ++ b with
        | nil =>
          obtain ⟨hp1, _⟩ := List.append_eq_nil.mp hpb
          rw [hp1]
          rfl
        | cons c rest =>
          have h0 : startsB p (p ++ b) = true := startsB_iff.mpr ⟨b, rfl⟩
          rw [hpb] at h0
          simp [hasSub, h0]
      simpa using hs
    | cons c a2 ih =>
      have h1 : hasSub p (a2 ++ (p ++ b)) = true := by
        simpa [List.append_assoc] using ih
      simpa [hasSub, List.cons_append] using Or.inr h1

lemma ciRepAux_skip (pat rep : List Char) :
    ∀ (n : Nat) (s : List Char), ciRepAux pat rep n s = ciRepAux pat rep 0 (s.drop n) := by
  intro n
  induction n with
  | zero => intro s; rfl
  | succ n ih =>
    intro s
    cases s with
    | nil => rfl
    | cons c rest => simpa [ciRepAux] using ih rest

lemma ciRepl_cons {pat rep : List Char} (hne : pat ≠ []) (c : Char) (rest : List Char) :
    ciRepl pat rep (c :: rest) =
      if ciStarts pat (c :: rest) = true then
        rep ++ ciRepl pat rep (rest.drop (pat.length - 1))
      else c :: ciRepl pat rep rest := by
  have hE : pat.isEmpty = false := by
    cases pat
    · exact absurd rfl hne
    · rfl
  show ciRepAux pat rep 0 (c :: rest) = _
  rw [ciRepAux, hE]
  simp only [Bool.not_false, Bool.true_and]
  split
  next h =>
    rw [ciRepAux_skip]
    rfl
  next h => rfl

lemma ciRepl_cons_no {pat rep : List Char} (hne : pat ≠ []) {c : Char}
    {rest : List Char} (h : ciStarts pat (c :: rest) = false) :
    ciRepl pat rep (c :: rest) = c :: ciRepl pat rep rest := by
  rw [ciRepl_cons hne, if_neg (by rw [h]; exact Bool.false_ne_true)]

lemma ciStarts_token_head_false {k : List Char} {c : Char} {t : List Char}
    (h : c ≠ '{') : ciStarts (tokenOf k) (c :: t) = false := by
  apply ciStarts_cons_false
  cases hE : ciEqChar '{' c
  · rfl
  · exact absurd (ciEq_lbrace_iff.mp hE) h

lemma ciRepl_seg {k rep : List Char} (s : List Char) (hs : braceFree s = true) :
    ∀ t, ciRepl (tokenOf k) rep (s ++ t) = s ++ ciRepl (tokenOf k) rep t := by
  induction s with
  | nil => intro t; rfl
  | cons c s2 ih =>
    intro t
    have hcb := braceFree_mem hs (List.mem_cons_self c s2)
    have hs2 : braceFree s2 = true := by
      unfold braceFree at hs ⊢
      rw [List.all_eq_true] at hs ⊢
      intro x hx
      exact hs x (List.mem_cons_of_mem c hx)
    rw [List.cons_append,
      ciRepl_cons_no (tokenOf_ne_nil k) (ciStarts_token_head_false hcb.1), ih hs2 t]
    rfl

lemma ciStarts_keys_ne {k k' : List Char} (hk : allKeyChar k = true)
    (hk' : allKeyChar k' = true) (hne : lowerL k ≠ lowerL k') (t : List Char) :
    ciStarts (k ++ ['}', '}']) (k' ++ '}' :: '}' :: t) = false := by
  induction k generalizing k' with
  | nil =>
    cases k' with
    | nil => exact absurd rfl hne
    | cons b k2 =>
      apply ciStarts_cons_false
      exact ciEq_rbrace_keyChar (allKeyChar_mem hk' (List.mem_cons_self b k2))
  | cons a k2 ih =>
    have ha : isKeyChar a = true := allKeyChar_mem hk (List.mem_cons_self a k2)
    have hk2 : allKeyChar k2 = true := by
      unfold allKeyChar at hk ⊢
      rw [List.all_eq_true] at hk ⊢
      intro x hx
      exact hk x (List.mem_cons_of_mem a hx)
    cases k' with
    | nil =>
      apply ciStarts_cons_false
      exact ciEq_keyChar_rbrace ha
    | cons b k2' =>
      have hk2' : allKeyChar k2' = true := by
        unfold allKeyChar at hk' ⊢
        rw [List.all_eq_true] at hk' ⊢
        intro x hx
        exact hk' x (List.mem_cons_of_mem b hx)
      cases he : ciEqChar a b with
      | false => exact ciStarts_cons_false he
      | true =>
        rw [List.cons_append, List.cons_append, ciStarts_cons_true he]
        apply ih hk2 hk2'
        intro hcon
        apply hne
        simp only [lowerL, List.map_cons]
        rw [ciEqChar_iff.mp he]
        unfold lowerL at hcon
        rw [hcon]

lemma ciStarts_tokens_ne {k k' : List Char} (hk : allKeyChar k = true)
    (hk' : allKeyChar k' = true) (hne : lowerL k ≠ lowerL k') (t : List Char) :
    ciStarts (tokenOf k) (tokenOf k' ++ t) = false := by
  show ciStarts ('{' :: '{' :: (k ++ ['}', '}']))
    (('{' :: '{' :: (k' ++ ['}', '}'])) ++ t) = false
  rw [List.cons_append, List.cons_append,
    ciStarts_cons_true (by decide), ciStarts_cons_true (by decide),
    show (k' ++ ['}', '}']) ++ t = k' ++ '}' :: '}' :: t by simp]
  exact ciStarts_keys_ne hk hk' hne t

lemma ciStarts_token_match {k k' : List Char} (h : lowerL k' = lowerL k)
    (t : List Char) : ciStarts (tokenOf k) (tokenOf k' ++ t) = true := by
  apply ciStarts_append_of_lower
  rw [lowerL_tokenOf, lowerL_tokenOf, h]

lemma ciRepl_token_match {k k' rep : List Char} (h : lowerL k' = lowerL k)
    (t : List Char) :
    ciRepl (tokenOf k) rep (tokenOf k' ++ t) = rep ++ ciRepl (tokenOf k) rep t := by
  have hlen : k'.length = k.length := by
    have h2 := congrArg List.length h
    simpa [lowerL_length] using h2
  show ciRepl (tokenOf k) rep ('{' :: (('{' :: (k' ++ ['}', '}'])) ++ t)) = _
  rw [ciRepl_cons (tokenOf_ne_nil k), if_pos]
  · congr 1
    have hlen2 : ('{' :: (k' ++ ['}', '}'])).length = (tokenOf k).length - 1 := by
      simp [tokenOf_length, hlen]
    rw [← hlen2, List.drop_left]
  · exact ciStarts_token_match h t

lemma ciRepl_token_ne {k k' rep : List Char} (hk : allKeyChar k = true)
    (hk' : allKeyChar k' = true) (hk'ne : k' ≠ []) (hne : lowerL k ≠ lowerL k')
    (t : List Char) :
    ciRepl (tokenOf k) rep (tokenOf k' ++ t) =
      tokenOf k' ++ ciRepl (tokenOf k) rep t := by
  obtain ⟨b, k2, rfl⟩ : ∃ b k2, k' = b :: k2 := by
    cases k' with
    | nil => exact absurd rfl hk'ne
    | cons b k2 => exact ⟨b, k2, rfl⟩
  have hb : isKeyChar b = true := allKeyChar_mem hk' (List.mem_cons_self b k2)
  have h0 : ciStarts (tokenOf k) (tokenOf (b :: k2) ++ t) = false :=
    ciStarts_tokens_ne hk hk' hne t
  have hsh : tokenOf (b :: k2) ++ t = '{' :: '{' :: b :: (k2 ++ ('}' :: '}' :: t)) := by
    simp [tokenOf]
  rw [hsh] at h0 ⊢
  rw [ciRepl_cons_no (tokenOf_ne_nil k) h0]
  have h1 : ciStarts (tokenOf k) ('{' :: b :: (k2 ++ ('}' :: '}' :: t))) = false := by
    show ciStarts ('{' :: '{' :: (k ++ ['}', '}'])) _ = false
    rw [ciStarts_cons_true (by decide)]
    apply ciStarts_cons_false
    cases hE : ciEqChar '{' b
    · rfl
    · exfalso
      have hbb := ciEq_lbrace_iff.mp hE
      rw [hbb] at hb
      exact absurd hb (by decide)
  rw [ciRepl_cons_no (tokenOf_ne_nil k) h1]
  rw [show b :: (k2 ++ ('}' :: '}' :: t)) = (b :: k2) ++ ('}' :: '}' :: t) from rfl,
    ciRepl_seg (b :: k2) (keyChar_braceFree hk'),
    ciRepl_cons_no (tokenOf_ne_nil k) (ciStarts_token_head_false (by decide)),
    ciRepl_cons_no (tokenOf_ne_nil k) (ciStarts_token_head_false (by decide))]
  simp [tokenOf]

lemma ciHas_cons_no {pat : List Char} {c : Char} {t : List Char}
    (h : ciStarts pat (c :: t) = false) : ciHas pat (c :: t) = ciHas pat t := by
  simp [ciHas, h]

lemma ciHas_seg {k : List Char} (s : List Char) (hs : braceFree s = true) :
    ∀ t, ciHas (tokenOf k) (s ++ t) = ciHas (tokenOf k) t := by
  induction s with
  | nil => intro t; rfl
  | cons c s2 ih =>
    intro t
    have hcb := braceFree_mem hs (List.mem_cons_self c s2)
    have hs2 : braceFree s2 = true := by
      unfold braceFree at hs ⊢
      rw [List.all_eq_true] at hs ⊢
      intro x hx
      exact hs x (List.mem_cons_of_mem c hx)
    rw [List.cons_append,
      ciHas_cons_no (ciStarts_token_head_false hcb.1), ih hs2 t]

lemma ciHas_token_ne {k k' : List Char} (hk : allKeyChar k = true)
    (hk' : allKeyChar k' = true) (hk'ne : k' ≠ []) (hne : lowerL k ≠ lowerL k')
    (t : List Char) :
    ciHas (tokenOf k) (tokenOf k' ++ t) = ciHas (tokenOf k) t := by
  obtain ⟨b, k2, rfl⟩ : ∃ b k2, k' = b :: k2 := by
    cases k' with
    | nil => exact absurd rfl hk'ne
    | cons b k2 => exact ⟨b, k2, rfl⟩
  have hb : isKeyChar b = true := allKeyChar_mem hk' (List.mem_cons_self b k2)
  have h0 : ciStarts (tokenOf k) (tokenOf (b :: k2) ++ t) = false :=
    ciStarts_tokens_ne hk hk' hne t
  have hsh : tokenOf (b :: k2) ++ t = '{' :: '{' :: b :: (k2 ++ ('}' :: '}' :: t)) := by
    simp [tokenOf]
  rw [hsh] at h0 ⊢
  rw [ciHas_cons_no h0]
  have h1 : ciStarts (tokenOf k) ('{' :: b :: (k2 ++ ('}' :: '}' :: t))) = false := by
    show ciStarts ('{' :: '{' :: (k ++ ['}', '}'])) _ = false
    rw [ciStarts_cons_true (by decide)]
    apply ciStarts_cons_false
    cases hE : ciEqChar '{' b
    · rfl
    · exfalso
      have hbb := ciEq_lbrace_iff.mp hE
      rw [hbb] at hb
      exact absurd hb (by decide)
  rw [ciHas_cons_no h1,
    show b :: (k2 ++ ('}' :: '}' :: t)) = (b :: k2) ++ ('}' :: '}' :: t) from rfl,
    ciHas_seg (b :: k2) (keyChar_braceFree hk'),
    ciHas_cons_no (ciStarts_token_head_false (by decide)),
    ciHas_cons_no (ciStarts_token_head_false (by decide))]

/-! ### Well-formed template texts: literal segments and placeholder tokens -/

/-- A piece of template text: either a literal segment or a placeholder
token with its key. -/
inductive Piece where
  | seg : List Char → Piece
  | tok : List Char → Piece
deriving DecidableEq, Repr

/-- Well-formedness of one piece: literal segments contain no braces, token
keys are nonempty and made of key characters — the shape produced by writing
braces only as `\x7b\x7bKEY\x7d\x7d` placeholders. -/
def pieceOk : Piece → Bool
  | Piece.seg s => braceFree s
  | Piece.tok k => !k.isEmpty && allKeyChar k

/-- Well-formedness of a whole template text. -/
def wfTpl (ts : List Piece) : Bool := ts.all pieceOk

/-- The literal text of a template. -/
def flattenTpl : List Piece → List Char
  | [] => []
  | Piece.seg s :: r => s ++ flattenTpl r
  | Piece.tok k :: r => tokenOf k ++ flattenTpl r

/-- The piece-level effect of replacing one key by a value. -/
def replacePiece (k v : List Char) : Piece → Piece
  | Piece.seg s => Piece.seg s
  | Piece.tok k' => if lowerL k' = lowerL k then Piece.seg v else Piece.tok k'

/-- Replace one key throughout a template. -/
def substTpl (k v : List Char) (ts : List Piece) : List Piece :=
  ts.map (replacePiece k v)

/-- Replace every mapping entry, in mapping order. -/
def substTplAll (m : List (List Char × List Char)) (ts : List Piece) : List Piece :=
  m.foldl (fun acc kv => substTpl kv.1 kv.2 acc) ts

lemma wfTpl_cons {p : Piece} {r : List Piece} :
    wfTpl (p :: r) = true ↔ pieceOk p = true ∧ wfTpl r = true := by
  simp [wfTpl]

lemma pieceOk_tok {k2 : List Char} (hp : pieceOk (Piece.tok k2) = true) :
    k2 ≠ [] ∧ allKeyChar k2 = true := by
  unfold pieceOk at hp
  simp only [Bool.and_eq_true, Bool.not_eq_true'] at hp
  refine ⟨?_, hp.2⟩
  intro hcon
  subst hcon
  exact absurd hp.1 (by decide)

lemma wfTpl_substTpl {k v : List Char} {ts : List Piece} (hwf : wfTpl ts = true)
    (hv : braceFree v = true) : wfTpl (substTpl k v ts) = true := by
  unfold wfTpl at hwf ⊢
  unfold substTpl
  rw [List.all_eq_true] at hwf ⊢
  intro p hp
  obtain ⟨q, hq, rfl⟩ := List.mem_map.mp hp
  have hq2 := hwf q hq
  cases q with
  | seg s => exact hq2
  | tok k2 =>
    by_cases hEq : lowerL k2 = lowerL k
    · rw [show replacePiece k v (Piece.tok k2) = Piece.seg v from by
        simp [replacePiece, hEq]]
      exact hv
    · rw [show replacePiece k v (Piece.tok k2) = Piece.tok k2 from by
        simp [replacePiece, hEq]]
      exact hq2

/-- Single-key correctness of the scanner over a well-formed template: the
case-insensitive literal replacement of the token acts piece-wise, replacing
exactly the case-insensitively matching tokens and nothing else. -/
lemma ciRepl_flattenTpl {k v : List Char} (hk : allKeyChar k = true) :
    ∀ ts : List Piece, wfTpl ts = true →
      ciRepl (tokenOf k) v (flattenTpl ts) = flattenTpl (substTpl k v ts) := by
  intro ts
  induction ts with
  | nil => intro _; rfl
  | cons p r ih =>
    intro hwf
    obtain ⟨hp, hr⟩ := wfTpl_cons.mp hwf
    cases p with
    | seg s =>
      show ciRepl (tokenOf k) v (s ++ flattenTpl r) =
        flattenTpl (Piece.seg s :: substTpl k v r)
      rw [ciRepl_seg s hp, ih hr]
      rfl
    | tok k2 =>
      have hk2ne := (pieceOk_tok hp).1
      have hk2 := (pieceOk_tok hp).2
      show ciRepl (tokenOf k) v (tokenOf k2 ++ flattenTpl r) =
        flattenTpl (replacePiece k v (Piece.tok k2) :: substTpl k v r)
      by_cases hEq : lowerL k2 = lowerL k
      · rw [ciRepl_token_match hEq, ih hr,
          show replacePiece k v (Piece.tok k2) = Piece.seg v from by
            simp [replacePiece, hEq]]
        rfl
      · have hne : lowerL k ≠ lowerL k2 := fun h => hEq h.symm
        rw [ciRepl_token_ne hk hk2 hk2ne hne, ih hr,
          show replacePiece k v (Piece.tok k2) = Piece.tok k2 from by
            simp [replacePiece, hEq]]
        rfl

/-- Full-mapping correctness of the replacement loop over a well-formed
template. -/
lemma applyAll_flattenTpl {m : List (List Char × List Char)}
    (hm : ∀ kv ∈ m, allKeyChar kv.1 = true ∧ braceFree kv.2 = true) :
    ∀ ts : List Piece, wfTpl ts = true →
      applyAll (normTok m) (flattenTpl ts) = flattenTpl (substTplAll m ts) := by
  induction m with
  | nil => intro ts _; rfl
  | cons kv m2 ih =>
    intro ts hwf
    have hkv := hm kv (List.mem_cons_self kv m2)
    have hm2 : ∀ x ∈ m2, allKeyChar x.1 = true ∧ braceFree x.2 = true :=
      fun x hx => hm x (List.mem_cons_of_mem kv hx)
    show applyAll (normTok m2) (ciRepl (tokenOf kv.1) kv.2 (flattenTpl ts)) =
      flattenTpl (substTplAll m2 (substTpl kv.1 kv.2 ts))
    rw [ciRepl_flattenTpl hkv.1 ts hwf,
      ih hm2 (substTpl kv.1 kv.2 ts) (wfTpl_substTpl hwf hkv.2)]

/-- Tokens surviving the whole replacement loop were in the original
template and match no mapped key case-insensitively. -/
lemma tok_mem_substTplAll {k' : List Char} :
    ∀ (m : List (List Char × List Char)) (ts : List Piece),
      Piece.tok k' ∈ substTplAll m ts →
      Piece.tok k' ∈ ts ∧ ∀ kv ∈ m, lowerL k' ≠ lowerL kv.1 := by
  intro m
  induction m with
  | nil =>
    intro ts h
    exact ⟨h, by intro kv hkv; cases hkv⟩
  | cons kv m2 ih =>
    intro ts h
    have h2 := ih (substTpl kv.1 kv.2 ts) h
    obtain ⟨hmem, hrest⟩ := h2
    obtain ⟨q, hq, hq2⟩ := List.mem_map.mp hmem
    have hq3 : q = Piece.tok k' ∧ lowerL k' ≠ lowerL kv.1 := by
      cases q with
      | seg s => exact absurd hq2 (by simp [replacePiece])
      | tok k2 =>
        by_cases hEq : lowerL k2 = lowerL kv.1
        · rw [show replacePiece kv.1 kv.2 (Piece.tok k2) = Piece.seg kv.2 from by
            simp [replacePiece, hEq]] at hq2
          cases hq2
        · rw [show replacePiece kv.1 kv.2 (Piece.tok k2) = Piece.tok k2 from by
            simp [replacePiece, hEq]] at hq2
          cases hq2
          exact ⟨rfl, hEq⟩
    refine ⟨hq3.1 ▸ hq, ?_⟩
    intro x hx
    rcases List.mem_cons.mp hx with rfl | hx2
    · exact hq3.2
    · exact hrest x hx2

/-- Over a well-formed template none of whose tokens matches `k`
case-insensitively, the token of `k` does not occur, not even
case-insensitively. -/
lemma ciHas_flattenTpl_false {k : List Char} (hk : allKeyChar k = true) :
    ∀ ts : List Piece, wfTpl ts = true →
      (∀ k', Piece.tok k' ∈ ts → lowerL k ≠ lowerL k') →
      ciHas (tokenOf k) (flattenTpl ts) = false := by
  intro ts
  induction ts with
  | nil => intro _ _; rfl
  | cons p r ih =>
    intro hwf hmem
    obtain ⟨hp, hr⟩ := wfTpl_cons.mp hwf
    have hmem2 : ∀ k', Piece.tok k' ∈ r → lowerL k ≠ lowerL k' :=
      fun k' hk' => hmem k' (List.mem_cons_of_mem p hk')
    cases p with
    | seg s =>
      show ciHas (tokenOf k) (s ++ flattenTpl r) = false
      rw [ciHas_seg s hp]
      exact ih hr hmem2
    | tok k2 =>
      have hk2ne := (pieceOk_tok hp).1
      have hk2 := (pieceOk_tok hp).2
      show ciHas (tokenOf k) (tokenOf k2 ++ flattenTpl r) = false
      rw [ciHas_token_ne hk hk2 hk2ne (hmem k2 (List.mem_cons_self _ _))]
      exact ih hr hmem2

/-! ### Whitespace normalization transfers substrings -/

lemma spaceFree_mem {s : List Char} (h : spaceFree s = true) {c : Char}
    (hc : c ∈ s) : isSpace c = false := by
  unfold spaceFree at h
  have h2 := List.all_eq_true.mp h c hc
  simpa using h2

lemma spaceFree_tail {c : Char} {s : List Char}
    (h : spaceFree (c :: s) = true) : spaceFree s = true := by
  unfold spaceFree at h ⊢
  rw [List.all_eq_true] at h ⊢
  intro x hx
  exact h x (List.mem_cons_of_mem c hx)

lemma collapseAux_true_eq (s : List Char) :
    collapseAux true s = collapseAux false (s.dropWhile isSpace) := by
  induction s with
  | nil => rfl
  | cons c rest ih =>
    cases hc : isSpace c with
    | false =>
      rw [List.dropWhile_cons_of_neg (by simp [hc])]
      simp [collapseAux, hc]
    | true =>
      rw [List.dropWhile_cons_of_pos (by simp [hc])]
      simpa [collapseAux, hc] using ih

lemma collapseWs_cons_nonspace {c : Char} (h : isSpace c = false)
    (rest : List Char) : collapseWs (c :: rest) = c :: collapseWs rest := by
  simp [collapseWs, collapseAux, h]

lemma collapseWs_cons_space {c : Char} (h : isSpace c = true) (rest : List Char) :
    collapseWs (c :: rest) = ' ' :: collapseWs (rest.dropWhile isSpace) := by
  simp [collapseWs, collapseAux, h, collapseAux_true_eq]

lemma collapseWs_spaceFree_append {x : List Char} (hx : spaceFree x = true) :
    ∀ b, collapseWs (x ++ b) = x ++ collapseWs b := by
  induction x with
  | nil => intro b; rfl
  | cons c x2 ih =>
    intro b
    have hc := spaceFree_mem hx (List.mem_cons_self _ _)
    rw [List.cons_append, collapseWs_cons_nonspace hc, ih (spaceFree_tail hx) b]
    rfl

lemma length_dropWhile_le (p : Char → Bool) (l : List Char) :
    (l.dropWhile p).length ≤ l.length := by
  induction l with
  | nil => simp
  | cons c t ih =>
    by_cases h : p c
    · rw [List.dropWhile_cons_of_pos h]
      exact Nat.le_trans ih (by simp)
    · rw [List.dropWhile_cons_of_neg h]

lemma collapseWs_mid {x : List Char} (hx : spaceFree x = true) (hxne : x ≠ []) :
    ∀ (n : Nat) (a b : List Char), a.length ≤ n →
      ∃ a' b', collapseWs (a ++ x ++ b) = a' ++ x ++ b' := by
  intro n
  induction n with
  | zero =>
    intro a b hlen
    have ha : a = [] := List.length_eq_zero.mp (Nat.le_zero.mp hlen)
    subst ha
    exact ⟨[], collapseWs b, by simpa using collapseWs_spaceFree_append hx b⟩
  | succ n ih =>
    intro a b hlen
    cases a with
    | nil => exact ⟨[], collapseWs b, by simpa using collapseWs_spaceFree_append hx b⟩
    | cons c a2 =>
      cases hc : isSpace c with
      | false =>
        obtain ⟨a', b', hab⟩ := ih a2 b (by simp at hlen; omega)
        refine ⟨c :: a', b', ?_⟩
        rw [show (c :: a2) ++ x ++ b = c :: (a2 ++ x ++ b) by simp,
          collapseWs_cons_nonspace hc, hab]
        simp
      | true =>
        rw [show (c :: a2) ++ x ++ b = c :: (a2 ++ x ++ b) by simp]
        rw [collapseWs_cons_space hc]
        rw [show a2 ++ x ++ b = a2 ++ (x ++ b) by simp, List.dropWhile_append]
        split
        next hnil =>
          obtain ⟨d, x2, rfl⟩ : ∃ d x2, x = d :: x2 := by
            cases x with
            | nil => exact absurd rfl hxne
            | cons d x2 => exact ⟨d, x2, rfl⟩
          have hd := spaceFree_mem hx (List.mem_cons_self _ _)
          rw [show (d :: x2) ++ b = d :: (x2 ++ b) by simp,
            List.dropWhile_cons_of_neg (by simp [hd])]
          refine ⟨[' '], collapseWs b, ?_⟩
          rw [show d :: (x2 ++ b) = (d :: x2) ++ b from rfl,
            collapseWs_spaceFree_append hx b]
          simp
        next hnil =>
          obtain ⟨a', b', hab⟩ := ih (a2.dropWhile isSpace) b (by
            have h1 := length_dropWhile_le isSpace a2
            simp at hlen
            omega)
          refine ⟨' ' :: a', b', ?_⟩
          rw [show a2.dropWhile isSpace ++ (x ++ b) =
            a2.dropWhile isSpace ++ x ++ b by simp, hab]
          simp

lemma dropWhile_isSpace_mid {x : List Char} (hx : spaceFree x = true)
    (hxne : x ≠ []) (a b : List Char) :
    ∃ a', (a ++ x ++ b).dropWhile isSpace = a' ++ x ++ b := by
  rw [show a ++ x ++ b = a ++ (x ++ b) by simp, List.dropWhile_append]
  split
  next hnil =>
    obtain ⟨d, x2, rfl⟩ : ∃ d x2, x = d :: x2 := by
      cases x with
      | nil => exact absurd rfl hxne
      | cons d x2 => exact ⟨d, x2, rfl⟩
    have hd := spaceFree_mem hx (List.mem_cons_self _ _)
    refine ⟨[], ?_⟩
    rw [show (d :: x2) ++ b = d :: (x2 ++ b) by simp,
      List.dropWhile_cons_of_neg (by simp [hd])]
    simp
  next hnil => exact ⟨a.dropWhile isSpace, by simp⟩

lemma stripWs_mid {x : List Char} (hx : spaceFree x = true) (hxne : x ≠ [])
    (a b : List Char) : ∃ a' b', stripWs (a ++ x ++ b) = a' ++ x ++ b' := by
  unfold stripWs
  obtain ⟨a1, h1⟩ := dropWhile_isSpace_mid hx hxne a b
  rw [h1]
  have hxr : spaceFree x.reverse = true := by
    unfold spaceFree at hx ⊢
    rw [List.all_eq_true] at hx ⊢
    intro c hc
    exact hx c (List.mem_reverse.mp hc)
  have hxrne : x.reverse ≠ [] := by simpa using hxne
  rw [show (a1 ++ x ++ b).reverse = b.reverse ++ x.reverse ++ a1.reverse by simp]
  obtain ⟨b1, h2⟩ := dropWhile_isSpace_mid hxr hxrne b.reverse a1.reverse
  rw [h2]
  exact ⟨a1, b1.reverse, by simp⟩

lemma hasSub_pyNormWs {x : List Char} (hx : spaceFree x = true) (hxne : x ≠ [])
    {s : List Char} (h : hasSub x s = true) : hasSub x (pyNormWs s) = true := by
  obtain ⟨a, b, rfl⟩ := hasSub_iff.mp h
  unfold pyNormWs
  obtain ⟨a1, b1, h1⟩ := collapseWs_mid hx hxne a.length a b Nat.le.refl
  rw [h1]
  obtain ⟨a2, b2, h2⟩ := stripWs_mid hx hxne a1 b1
  rw [h2]
  exact hasSub_iff.mpr ⟨a2, b2, rfl⟩

lemma ciHas_pyNormWs {pat : List Char} (hpat : ∀ c ∈ pat, isSpace c = false)
    (hpne : pat ≠ []) {s : List Char} (h : ciHas pat s = true) :
    ciHas pat (pyNormWs s) = true := by
  obtain ⟨a, m, b, rfl, hm⟩ := ciHas_occurrence.mp h
  have hmsf : spaceFree m = true := by
    unfold spaceFree
    rw [List.all_eq_true]
    intro c hc
    have hcl : Char.toLower c ∈ lowerL pat := by
      rw [← hm]
      exact List.mem_map_of_mem _ hc
    obtain ⟨p, hp, hpc⟩ := List.mem_map.mp hcl
    have h1 : isSpace (Char.toLower p) = false := by
      rw [isSpace_toLower]
      exact hpat p hp
    rw [hpc, isSpace_toLower] at h1
    simp [h1]
  have hmne : m ≠ [] := by
    intro hcon
    subst hcon
    have h2 := congrArg List.length hm
    simp only [lowerL_length, List.length_nil] at h2
    exact hpne (List.length_eq_zero.mp h2.symm)
  unfold pyNormWs
  obtain ⟨a1, b1, h1⟩ := collapseWs_mid hmsf hmne a.length a b Nat.le.refl
  rw [h1]
  obtain ⟨a2, b2, h2⟩ := stripWs_mid hmsf hmne a1 b1
  rw [h2]
  exact ciHas_occurrence.mpr ⟨a2, m, b2, rfl, hm⟩

lemma token_nonspace {k : List Char} (hk : allKeyChar k = true) :
    ∀ c ∈ tokenOf k, isSpace c = false := by
  intro c hc
  unfold tokenOf at hc
  simp only [List.mem_cons, List.mem_append] at hc
  rcases hc with rfl | rfl | hc | hc
  · decide
  · decide
  · exact keyChar_not_space (allKeyChar_mem hk hc)
  · simp only [List.mem_cons, List.not_mem_nil, or_false] at hc
    rcases hc with rfl | rfl <;> decide

lemma hasSub_cons_of {p t : List Char} {c : Char} (h : hasSub p t = true) :
    hasSub p (c :: t) = true := by
  simp [hasSub, h]

lemma hasSub_append_of {p u t : List Char} (h : hasSub p t = true) :
    hasSub p (u ++ t) = true := by
  obtain ⟨a, b, rfl⟩ := hasSub_iff.mp h
  exact hasSub_iff.mpr ⟨u ++ a, b, by simp⟩

/-- A case-insensitive match of one token literal cannot start strictly
inside the run-up to an exact occurrence of a different token and overlap
it: the braces cannot line up. -/
lemma ciStarts_no_overlap {k k' : List Char} (hk : allKeyChar k = true)
    (hk' : allKeyChar k' = true) (hk'ne : k' ≠ []) {a b : List Char}
    (ha : 1 ≤ a.length) (hlen : a.length < (tokenOf k).length) :
    ciStarts (tokenOf k) (a ++ (tokenOf k' ++ b)) = false := by
  cases hS : ciStarts (tokenOf k) (a ++ (tokenOf k' ++ b))
  · rfl
  exfalso
  have hdrop := ciStarts_drop a (tokenOf k) (tokenOf k' ++ b)
    (Nat.le_of_lt hlen) hS
  obtain ⟨b0, k2', rfl⟩ : ∃ b0 k2', k' = b0 :: k2' := by
    cases k' with
    | nil => exact absurd rfl hk'ne
    | cons b0 k2' => exact ⟨b0, k2', rfl⟩
  have hb0 : isKeyChar b0 = true := allKeyChar_mem hk' (List.mem_cons_self _ _)
  have htgt : tokenOf (b0 :: k2') ++ b =
      '{' :: '{' :: (b0 :: (k2' ++ ('}' :: '}' :: b))) := by
    simp [tokenOf]
  rw [htgt] at hdrop
  rcases Nat.lt_or_ge a.length 2 with h2 | h2
  · have h1 : a.length = 1 := by omega
    rw [h1] at hdrop
    rw [show (tokenOf k).drop 1 = '{' :: (k ++ ['}', '}']) from rfl] at hdrop
    rw [ciStarts_cons_true (by decide)] at hdrop
    cases k with
    | nil =>
      rw [show ([] : List Char) ++ ['}', '}'] = ['}', '}'] from rfl] at hdrop
      rw [ciStarts_cons_false (by decide)] at hdrop
      exact Bool.false_ne_true hdrop
    | cons c0 k3 =>
      have hc0 : isKeyChar c0 = true := allKeyChar_mem hk (List.mem_cons_self _ _)
      rw [List.cons_append, ciStarts_cons_false (ciEq_keyChar_lbrace hc0)] at hdrop
      exact Bool.false_ne_true hdrop
  · obtain ⟨m, hm⟩ : ∃ m, a.length = m + 2 := ⟨a.length - 2, by omega⟩
    rw [hm] at hdrop hlen
    rw [show (tokenOf k).drop (m + 2) = (k ++ ['}', '}']).drop m from rfl] at hdrop
    have hmlt : m < (k ++ ['}', '}']).length := by
      have h8 : (tokenOf k).length = k.length + 4 := tokenOf_length k
      have h9 : (k ++ ['}', '}']).length = k.length + 2 := by simp
      omega
    obtain ⟨c0, rest0, hd0⟩ : ∃ c0 rest0, (k ++ ['}', '}']).drop m = c0 :: rest0 := by
      cases hdd : (k ++ ['}', '}']).drop m with
      | nil =>
        exfalso
        have h3 := congrArg List.length hdd
        rw [List.length_drop] at h3
        have h8 : (tokenOf k).length = k.length + 4 := tokenOf_length k
        have h9 : (k ++ ['}', '}']).length = k.length + 2 := by simp
        simp only [List.length_nil] at h3
        omega
      | cons c0 rest0 => exact ⟨c0, rest0, rfl⟩
    rw [hd0] at hdrop
    have hc0mem : c0 ∈ k ++ ['}', '}'] := by
      have h4 : c0 ∈ (k ++ ['}', '}']).drop m := by
        rw [hd0]
        exact List.mem_cons_self _ _
      exact List.drop_subset _ _ h4
    have hc0 : ciEqChar c0 '{' = false := by
      rcases List.mem_append.mp hc0mem with h5 | h5
      · exact ciEq_keyChar_lbrace (allKeyChar_mem hk h5)
      · simp only [List.mem_cons, List.not_mem_nil, or_false] at h5
        rcases h5 with rfl | rfl <;> decide
    rw [ciStarts_cons_false hc0] at hdrop
    exact Bool.false_ne_true hdrop

/-- Exact occurrences of an unmapped token survive one replacement step. -/
lemma ciRepl_keeps_token {k k' v : List Char} (hk : allKeyChar k = true)
    (hk' : allKeyChar k' = true) (hk'ne : k' ≠ []) (hne : lowerL k ≠ lowerL k') :
    ∀ (n : Nat) (s : List Char), s.length ≤ n → hasSub (tokenOf k') s = true →
      hasSub (tokenOf k') (ciRepl (tokenOf k) v s) = true := by
  intro n
  induction n with
  | zero =>
    intro s hlen hs
    have hs0 : s = [] := List.length_eq_zero.mp (Nat.le_zero.mp hlen)
    subst hs0
    obtain ⟨a, b, hab⟩ := hasSub_iff.mp hs
    exact absurd hab.symm (by simp [tokenOf])
  | succ n ih =>
    intro s hlen hs
    obtain ⟨a, b, rfl⟩ := hasSub_iff.mp hs
    cases a with
    | nil =>
      rw [show ([] : List Char) ++ tokenOf k' ++ b = tokenOf k' ++ b by simp,
        ciRepl_token_ne hk hk' hk'ne hne]
      exact hasSub_iff.mpr ⟨[], ciRepl (tokenOf k) v b, by simp⟩
    | cons c a2 =>
      rw [show (c :: a2) ++ tokenOf k' ++ b = c :: (a2 ++ tokenOf k' ++ b) by simp]
      cases hS : ciStarts (tokenOf k) (c :: (a2 ++ tokenOf k' ++ b)) with
      | false =>
        rw [ciRepl_cons_no (tokenOf_ne_nil k) hS]
        apply hasSub_cons_of
        apply ih (a2 ++ tokenOf k' ++ b) _ (hasSub_iff.mpr ⟨a2, b, rfl⟩)
        have h5 := hlen
        simp only [List.length_cons, List.length_append] at h5 ⊢
        omega
      | true =>
        by_cases hL : (tokenOf k).length ≤ (c :: a2).length
        · rw [ciRepl_cons (tokenOf_ne_nil k), if_pos hS]
          have hL2 : (tokenOf k).length - 1 ≤ a2.length := by
            simp only [List.length_cons] at hL
            omega
          rw [show a2 ++ tokenOf k' ++ b = a2 ++ (tokenOf k' ++ b) by simp,
            List.drop_append_of_le_length hL2]
          apply hasSub_append_of
          apply ih (a2.drop ((tokenOf k).length - 1) ++ (tokenOf k' ++ b))
          · have h5 := hlen
            have h6 := List.length_drop ((tokenOf k).length - 1) a2
            have h7 : (tokenOf k).length = k.length + 4 := tokenOf_length k
            simp only [List.length_cons, List.length_append] at h5 ⊢
            omega
          · exact hasSub_iff.mpr ⟨a2.drop ((tokenOf k).length - 1), b, by simp⟩
        · exfalso
          have hno := ciStarts_no_overlap hk hk' hk'ne (a := c :: a2) (b := b)
            (by simp) (by simp only [List.length_cons] at hL ⊢; omega)
          rw [show (c :: a2) ++ (tokenOf k' ++ b) =
            c :: (a2 ++ tokenOf k' ++ b) by simp] at hno
          rw [hS] at hno
          cases hno

lemma tableParas_map (f : Para → Para) (t : Table) :
    tableParas { rows := t.rows.map (fun r =>
        { cells := r.cells.map (fun c => { paras := c.paras.map f }) }) } =
      (tableParas t).map f := by
  unfold tableParas
  rw [List.map_flatten, List.map_map, List.map_map]
  congr 1
  apply List.map_congr_left
  intro r _
  simp only [Function.comp]
  rw [List.map_flatten, List.map_map, List.map_map]
  congr 1

lemma secParas_map (f : Para → Para) (s : Sec) :
    secParas { header := s.header.map f, footer := s.footer.map f } =
      (secParas s).map f := by
  unfold secParas
  rw [List.map_append]

lemma allParagraphs_mapParas (f : Para → Para) (d : Doc) :
    allParagraphs (mapParas f d) = (allParagraphs d).map f := by
  unfold allParagraphs mapParas
  rw [List.map_append, List.map_append]
  congr 1
  · congr 1
    rw [List.map_flatten, List.map_map, List.map_map]
    congr 1
    apply List.map_congr_left
    intro t _
    simp only [Function.comp]
    exact tableParas_map f t
  · rw [List.map_flatten, List.map_map, List.map_map]
    congr 1
    apply List.map_congr_left
    intro sct _
    simp only [Function.comp]
    exact secParas_map f sct

lemma substPara_eq (nm : List (List Char × List Char)) (p : Para) :
    substPara nm p =
      if applyAll nm (paraText p) = paraText p then p
      else Para.mk [mkRun (applyAll nm (paraText p))] := rfl

lemma runsText_single (t : List Char) :
    runsText (Para.mk [mkRun t]) = t := by
  simp [runsText, mkRun]

lemma token_spaceFree {k : List Char} (hk : allKeyChar k = true) :
    spaceFree (tokenOf k) = true := by
  unfold spaceFree
  rw [List.all_eq_true]
  intro c hc
  simp [token_nonspace hk c hc]

lemma wfTpl_substTplAll {m : List (List Char × List Char)}
    (hm : ∀ kv ∈ m, braceFree kv.2 = true) :
    ∀ ts, wfTpl ts = true → wfTpl (substTplAll m ts) = true := by
  induction m with
  | nil => intro ts h; exact h
  | cons kv m2 ih =>
    intro ts h
    show wfTpl (substTplAll m2 (substTpl kv.1 kv.2 ts)) = true
    exact ih (fun x hx => hm x (List.mem_cons_of_mem _ hx)) _
      (wfTpl_substTpl h (hm kv (List.mem_cons_self _ _)))

/-- C1 (amended): over documents whose paragraph texts are well-formed
(braces occur only as placeholder tokens with nonempty alphanumeric or
underscore keys) and mappings whose canonical keys are made of key
characters and whose values are brace-free, the substitution pass leaves no
case-insensitive occurrence of any mapped token in any paragraph's
effective (run-concatenated) text, across body, tables, headers and
footers. -/
theorem C1_no_mapped_token_left (d : Doc) (m : List (List Char × List Char))
    (hwf : ∀ p ∈ allParagraphs d, ∃ ts, wfTpl ts = true ∧ paraText p = flattenTpl ts)
    (hm : ∀ kv ∈ m, allKeyChar kv.1 = true ∧ braceFree kv.2 = true) :
    ∀ p' ∈ allParagraphs (replacePlaceholdersAndCollectExceptions m d).1,
      ∀ kv ∈ m, ciHas (tokenOf kv.1) (runsText p') = false := by
  intro p' hp' kv hkv
  have hd : (replacePlaceholdersAndCollectExceptions m d).1 =
      mapParas (substPara (normTok m)) d := rfl
  rw [hd, allParagraphs_mapParas] at hp'
  obtain ⟨p, hp, rfl⟩ := List.mem_map.mp hp'
  obtain ⟨ts, hts, htext⟩ := hwf p hp
  have hkey := (hm kv hkv).1
  have hsurv : ∀ k2, Piece.tok k2 ∈ substTplAll m ts → lowerL kv.1 ≠ lowerL k2 := by
    intro k2 hk2
    have h5 := (tok_mem_substTplAll m ts hk2).2 kv hkv
    exact fun h6 => h5 h6.symm
  have hwf2 : wfTpl (substTplAll m ts) = true :=
    wfTpl_substTplAll (fun x hx => (hm x hx).2) ts hts
  have hfin : ciHas (tokenOf kv.1) (flattenTpl (substTplAll m ts)) = false :=
    ciHas_flattenTpl_false hkey (substTplAll m ts) hwf2 hsurv
  have h8 : applyAll (normTok m) (paraText p) = flattenTpl (substTplAll m ts) := by
    rw [htext]
    exact applyAll_flattenTpl hm ts hts
  rw [substPara_eq]
  split
  next hsame =>
    cases hct : ciHas (tokenOf kv.1) (runsText p) with
    | false => rfl
    | true =>
      exfalso
      have h7 := ciHas_pyNormWs (token_nonspace hkey) (tokenOf_ne_nil kv.1) hct
      rw [show pyNormWs (runsText p) = paraText p from rfl] at h7
      rw [hsame] at h8
      rw [h8, hfin] at h7
      cases h7
  next hdiff =>
    rw [runsText_single, h8]
    exact hfin

/-- C1 counterexample: the claim fails as universally stated.  First
scenario: a mapping value containing a token (`A` mapped to `\x7b\x7ba\x7d\x7d`)
recreates a case-insensitive occurrence of the mapped token.  Second
scenario: with an ill-formed template (`\x7b\x7bC\x7b\x7bA\x7d\x7dD\x7d\x7d`)
and brace-free values, replacing the inner token assembles a token of the
other mapped key CBD. -/
theorem C1_counterexample_token_recreated :
    ((allParagraphs (replacePlaceholdersAndCollectExceptions
        [(str "A", str "{{a}}")]
        (Doc.mk [Para.mk [mkRun (str "{{A}}")]] [] [])).1).map
      (fun p => ciHas (tokenOf (str "A")) (runsText p))) = [true] ∧
    ((allParagraphs (replacePlaceholdersAndCollectExceptions
        [(str "CBD", str "x"), (str "A", str "B")]
        (Doc.mk [Para.mk [mkRun (str "{{C{{A}}D}}")]] [] [])).1).map
      (fun p => ciHas (tokenOf (str "CBD")) (runsText p))) = [true] := by
  constructor
  · decide
  · decide

/-- C1 witness: the amended theorem applied to a concrete document. -/
theorem C1_no_mapped_token_left_witness :
    ciHas (tokenOf (str "NAME"))
      (runsText (substPara (normTok [(str "NAME", str "World")])
        (Para.mk [mkRun (str "Hello {{NAME}}")]))) = false := by
  have h := C1_no_mapped_token_left
    (Doc.mk [Para.mk [mkRun (str "Hello {{NAME}}")]] [] [])
    [(str "NAME", str "World")]
    (by
      intro p hp
      have hp2 : p = Para.mk [mkRun (str "Hello {{NAME}}")] := by
        simpa [allParagraphs] using hp
      subst hp2
      exact ⟨[Piece.seg (str "Hello "), Piece.tok (str "NAME")], by decide, by decide⟩)
    (by decide)
  exact h (substPara (normTok [(str "NAME", str "World")])
      (Para.mk [mkRun (str "Hello {{NAME}}")]))
    (by decide) (str "NAME", str "World") (by decide)

/-- C2 (amended): a placeholder token whose key is made of key characters
and differs case-insensitively from every mapped canonical key (i.e. is not
in the mapping's canonical key set), and whose mapped neighbours' keys
are themselves made of key characters, remains byte-identical (still
occurs verbatim) in the paragraph's effective text after substitution —
also when it shares a paragraph with a mapped token that is replaced. -/
theorem C2_unmapped_token_verbatim (d : Doc) (m : List (List Char × List Char))
    (k' : List Char) (hk' : allKeyChar k' = true) (hk'ne : k' ≠ [])
    (hm : ∀ kv ∈ m, allKeyChar kv.1 = true ∧ lowerL kv.1 ≠ lowerL k') :
    ∀ (i : Nat) (p p' : Para), (allParagraphs d)[i]? = some p →
      (allParagraphs (replacePlaceholdersAndCollectExceptions m d).1)[i]? = some p' →
      hasSub (tokenOf k') (runsText p) = true →
      hasSub (tokenOf k') (runsText p') = true := by
  intro i p p' hp hp' hocc
  have hd : (replacePlaceholdersAndCollectExceptions m d).1 =
      mapParas (substPara (normTok m)) d := rfl
  rw [hd, allParagraphs_mapParas, List.getElem?_map, hp] at hp'
  have hp2 : substPara (normTok m) p = p' := by
    simpa using hp'
  rw [← hp2, substPara_eq]
  split
  next hsame => exact hocc
  next hdiff =>
    rw [runsText_single]
    have hnorm : hasSub (tokenOf k') (paraText p) = true :=
      hasSub_pyNormWs (token_spaceFree hk') (tokenOf_ne_nil k') hocc
    have hfold : ∀ (mm : List (List Char × List Char)),
        (∀ kv ∈ mm, allKeyChar kv.1 = true ∧ lowerL kv.1 ≠ lowerL k') →
        ∀ s, hasSub (tokenOf k') s = true →
          hasSub (tokenOf k') (applyAll (normTok mm) s) = true := by
      intro mm
      induction mm with
      | nil => intro _ s h; exact h
      | cons kv m2 ih =>
        intro hmm s h
        have hkv := hmm kv (List.mem_cons_self _ _)
        show hasSub _ (applyAll (normTok m2) (ciRepl (tokenOf kv.1) kv.2 s)) = true
        apply ih (fun x hx => hmm x (List.mem_cons_of_mem _ hx))
        exact ciRepl_keeps_token hkv.1 hk' hk'ne hkv.2 s.length s Nat.le.refl h
    exact hfold m hm _ hnorm

/-- C2 counterexample: with an arbitrary mapping the claim fails — a
canonical key containing brace characters (`A\x7d\x7dB`, which
`upcase_keys` leaves intact) makes the replacement consume the unmapped
token `\x7b\x7bA\x7d\x7d` sharing the paragraph. -/
theorem C2_counterexample_unmapped_token_destroyed :
    (hasSub (tokenOf (str "A"))
      (runsText (Para.mk [mkRun (str "{{A}}B\x7d\x7d")])) = true) ∧
    (normKey (str "A\x7d\x7dB") = str "A\x7d\x7dB") ∧
    ((allParagraphs (replacePlaceholdersAndCollectExceptions
        [(str "A\x7d\x7dB", str "x")]
        (Doc.mk [Para.mk [mkRun (str "{{A}}B\x7d\x7d")]] [] [])).1).map
      (fun p => hasSub (tokenOf (str "A")) (runsText p))) = [false] := by
  refine ⟨by decide, by decide, by decide⟩

/-- C2 witness: the amended theorem applied to a concrete document where an
unmapped token shares the paragraph with a replaced one. -/
theorem C2_unmapped_token_verbatim_witness :
    hasSub (tokenOf (str "KEEP"))
      (runsText (substPara (normTok [(str "NAME", str "World")])
        (Para.mk [mkRun (str "{{NAME}} and {{KEEP}}")]))) = true := by
  have h := C2_unmapped_token_verbatim
    (Doc.mk [Para.mk [mkRun (str "{{NAME}} and {{KEEP}}")]] [] [])
    [(str "NAME", str "World")] (str "KEEP") (by decide) (by decide) (by decide)
  exact h 0 (Para.mk [mkRun (str "{{NAME}} and {{KEEP}}")])
    (substPara (normTok [(str "NAME", str "World")])
      (Para.mk [mkRun (str "{{NAME}} and {{KEEP}}")]))
    (by decide) (by decide) (by decide)

/-- C3 counterexample: the rewritten single run does not carry the original
run-concatenated text with only the token occurrences replaced — interior
whitespace is collapsed first (`A␣␣\x7b\x7bK\x7d\x7d` becomes `A␣v`, not
`A␣␣v`). -/
theorem C3_counterexample_whitespace_collapsed :
    runsText (substPara (normTok [(str "K", str "v")])
        (Para.mk [mkRun (str "A  {{K}}")])) ≠
      ciRepl (tokenOf (str "K")) (str "v")
        (runsText (Para.mk [mkRun (str "A  {{K}}")])) := by decide

/-- C3 (amended): when the substitution pass rewrites a paragraph, the new
single run's text is exactly the whitespace-normalized original effective
text with the mapped-token occurrences replaced by their values: every
literal segment of the normalized text is preserved unchanged, tokens of
mapped keys are replaced by the mapped values, and nothing else changes. -/
theorem C3_rewrite_exact (m : List (List Char × List Char)) (ts : List Piece)
    (p : Para) (hwf : wfTpl ts = true)
    (hm : ∀ kv ∈ m, allKeyChar kv.1 = true ∧ braceFree kv.2 = true)
    (htext : paraText p = flattenTpl ts)
    (hchanged : applyAll (normTok m) (paraText p) ≠ paraText p) :
    (substPara (normTok m) p).runs = [mkRun (flattenTpl (substTplAll m ts))] ∧
    runsText (substPara (normTok m) p) = flattenTpl (substTplAll m ts) := by
  have h8 : applyAll (normTok m) (paraText p) = flattenTpl (substTplAll m ts) := by
    rw [htext]
    exact applyAll_flattenTpl hm ts hwf
  rw [substPara_eq, if_neg hchanged]
  constructor
  · rw [h8]
  · rw [runsText_single, h8]

/-- C3 witness: the amended theorem applied to a concrete rewritten
paragraph. -/
theorem C3_rewrite_exact_witness :
    (substPara (normTok [(str "K", str "v")])
        (Para.mk [mkRun (str "A  {{K}}")])).runs =
      [mkRun (flattenTpl (substTplAll [(str "K", str "v")]
        [Piece.seg (str "A "), Piece.tok (str "K")]))] :=
  (C3_rewrite_exact [(str "K", str "v")]
    [Piece.seg (str "A "), Piece.tok (str "K")]
    (Para.mk [mkRun (str "A  {{K}}")])
    (by decide) (by decide) (by decide) (by decide)).1
